import Mathlib

/-! # go-msvc/str : a verification development

A shallow embedding of the three source files of the package `str`
(`password.go`, `identifier.go`, `snake.go`) and theorems about it.

Conventions of the embedding.

* A Go `string` / `[]byte` is a `List Nat` of bytes (every byte is below 256).
* A Go `int` is an `Int`; the only arithmetic the code performs on ints is the
  comparison of counters and lengths, which cannot overflow.
* The process-wide random source of `math/rand` is a stream `Rand` of the
  values that successive calls will return; a theorem quantified over every
  `Rand` holds for every outcome of the random draws.
* A run-time panic of Go is a value of `Panic`; code that can panic returns
  `Except Panic _`.
* A value of the interface `PasswordGeneratorOption` is an `Option`: `none` is
  the nil interface value, on which a method call panics.
* The package `crypto/sha1` is embedded as the Go library implements it: the
  buffered `Write`, the padding of `checkSum` and the rounds of `blockGeneric`,
  on words kept below `2 ^ 32`.
* The package-level variable `salt` is the field of a `Package`, which
  `PasswordHash` takes as an argument.
-/

namespace Str

/-! ## Go strings -/

/-- The bytes of an ASCII string literal. -/
def bytes (s : String) : List Nat := s.toList.map Char.toNat

/-- The replacement rune `utf8.RuneError` (U+FFFD). -/
def RuneError : Nat := 0xFFFD

/-- The function `utf8.DecodeRuneInString` of the Go library: the first rune of
a non-empty byte string and its width in bytes.  An invalid or truncated
encoding decodes to `RuneError` with width 1. -/
def decodeRune (s : List Nat) : Nat × Nat :=
  match s with
  | [] => (RuneError, 0)
  | s0 :: rest =>
    if s0 < 0x80 then (s0, 1)
    else if s0 < 0xC2 then (RuneError, 1)
    else if s0 < 0xE0 then
      -- two bytes, second in 0x80..0xBF
      match rest with
      | s1 :: _ =>
        if s1 < 0x80 ∨ 0xBF < s1 then (RuneError, 1)
        else ((s0 % 0x20) * 0x40 + s1 % 0x40, 2)
      | _ => (RuneError, 1)
    else if s0 < 0xF0 then
      -- three bytes; the range of the second depends on the first
      let lo := if s0 = 0xE0 then 0xA0 else 0x80
      let hi := if s0 = 0xED then 0x9F else 0xBF
      match rest with
      | s1 :: s2 :: _ =>
        if s1 < lo ∨ hi < s1 then (RuneError, 1)
        else if s2 < 0x80 ∨ 0xBF < s2 then (RuneError, 1)
        else ((s0 % 0x10) * 0x1000 + (s1 % 0x40) * 0x40 + s2 % 0x40, 3)
      | _ => (RuneError, 1)
    else if s0 < 0xF5 then
      -- four bytes; the range of the second depends on the first
      let lo := if s0 = 0xF0 then 0x90 else 0x80
      let hi := if s0 = 0xF4 then 0x8F else 0xBF
      match rest with
      | s1 :: s2 :: s3 :: _ =>
        if s1 < lo ∨ hi < s1 then (RuneError, 1)
        else if s2 < 0x80 ∨ 0xBF < s2 then (RuneError, 1)
        else if s3 < 0x80 ∨ 0xBF < s3 then (RuneError, 1)
        else ((s0 % 0x08) * 0x40000 + (s1 % 0x40) * 0x1000 + (s2 % 0x40) * 0x40 + s3 % 0x40, 4)
      | _ => (RuneError, 1)
    else (RuneError, 1)

/-- The loop `for _, c := range s`: with `skip` bytes of the current rune still
to step over, the runes that the rest of the string decodes to. -/
def runesFrom : Nat → List Nat → List Nat
  | _, [] => []
  | skip + 1, _ :: rest => runesFrom skip rest
  | 0, s0 :: rest => (decodeRune (s0 :: rest)).1 :: runesFrom ((decodeRune (s0 :: rest)).2 - 1) rest

/-- The runes that `for _, c := range s` visits, in order. -/
def runes (s : List Nat) : List Nat := runesFrom 0 s

/-- The test `strings.IndexRune(s, c) >= 0`: the code point `c` is one of the
runes of `s` (`IndexRune` returns -1 exactly when it is not). -/
def containsRune (s : List Nat) (c : Nat) : Bool := (runes s).contains c

/-! ## password.go -/

/-- A run-time panic. -/
inductive Panic where
  /-- integer divide by zero -/
  | divideByZero
  /-- index out of range `[index]` with length `length` -/
  | indexOutOfRange (index length : Nat)
  /-- invalid memory address or nil pointer dereference -/
  | nilDereference
  deriving DecidableEq

/-- The outcomes of the successive calls of the random source. -/
abbrev Rand := Nat → Nat

/-- The random source after one call. -/
def Rand.tail (r : Rand) : Rand := fun k => r (k + 1)

def CharsLower : List Nat := bytes "abcdefghijkmlnopqrstuvwxyz"
def CharsUpper : List Nat := bytes "ABCDEFGHIJKLMNOPQRSTUVWXYZ"
def CharsDigits : List Nat := bytes "0123456789"
def CharsSymbols : List Nat := bytes "!@#$%*()_+-=\x7b\x7d[]:;\"\x27<>,./?|\\~\x60"

/-- The type `pwgCharSet`: one rule. -/
structure pwgCharSet where
  min : Int
  max : Int
  chars : List Nat
  deriving DecidableEq

/-- The type `pwg`: the generator, an ordered list of rules. -/
structure pwg where
  charSets : List pwgCharSet
  deriving DecidableEq

/-- The type `pwgoCharSet`, the only implementation of the interface
`PasswordGeneratorOption` (its method takes the unexported `*pwg`). -/
structure pwgoCharSet where
  min : Int
  max : Int
  chars : List Nat
  deriving DecidableEq

/-- The interface `PasswordGeneratorOption`: a value of it is nil (`none`) or
holds a `pwgoCharSet`. -/
abbrev PasswordGeneratorOption := Option pwgoCharSet

/-- The function `CharSet`. -/
def CharSet (min max : Int) (chars : List Nat) : PasswordGeneratorOption :=
  some { min := min, max := max, chars := chars }

/-- The method `pwgoCharSet.Apply`: append the rule to the list of the generator. -/
def pwgoCharSet.Apply (opt : pwgoCharSet) (g : pwg) : pwg :=
  { charSets := g.charSets ++ [{ min := opt.min, max := opt.max, chars := opt.chars }] }

/-- The error value of Go: `none` is `nil`. -/
abbrev GoError (ε : Type) := Option ε

/-- The loop `for _, option := range options` of `NewPasswordGenerator`: the
call `option.Apply(&pwg)` on a nil option panics. -/
def applyOptions : List PasswordGeneratorOption → pwg → Except Panic pwg
  | [], g => .ok g
  | none :: _, _ => .error .nilDereference
  | some option :: rest, g => applyOptions rest (option.Apply g)

/-- The function `NewPasswordGenerator`: the generator and the error it
returns, when it returns. -/
def NewPasswordGenerator (options : List PasswordGeneratorOption) :
    Except Panic (pwg × GoError Unit) :=
  match applyOptions options { charSets := [] } with
  | .error e => .error e
  | .ok g =>
    .ok (if g.charSets.length = 0 then
        { charSets := [{ min := 0, max := 0,
                         chars := CharsLower ++ CharsUpper ++ CharsDigits ++ CharsSymbols }] }
      else g, none)

/-- The expression `chars[rand.Int()%len(chars)]`: one random byte of `chars`
and the random source after the call.  It panics when `chars` is empty. -/
def randomChar (chars : List Nat) (r : Rand) : Except Panic (Nat × Rand) :=
  if chars.length = 0 then .error .divideByZero
  else
    match chars[r 0 % chars.length]? with
    | none => .error (.indexOutOfRange (r 0 % chars.length) chars.length)
    | some c => .ok (c, r.tail)

/-- The inner loop `for i := 0; i < charset.min; i++` of `New`, with `k`
iterations left: each appends one random byte of `chars` to `pw`. -/
def appendRandom (chars : List Nat) : Nat → List Nat → Rand → Except Panic (List Nat × Rand)
  | 0, pw, r => .ok (pw, r)
  | k + 1, pw, r =>
    match randomChar chars r with
    | .error e => .error e
    | .ok (c, r1) => appendRandom chars k (pw ++ [c]) r1

/-- The first loop of `New`, over the rules from index `charSetIndex` on: append
`min` random bytes of each rule and record `min` in `charsetNrUsed`. -/
def minLoop : List pwgCharSet → Nat → List Int → List Nat → Rand →
    Except Panic (List Int × List Nat × Rand)
  | [], _, charsetNrUsed, pw, r => .ok (charsetNrUsed, pw, r)
  | charset :: rest, charSetIndex, charsetNrUsed, pw, r =>
    match appendRandom charset.chars charset.min.toNat pw r with
    | .error e => .error e
    | .ok (pw1, r1) =>
      if charSetIndex < charsetNrUsed.length then
        minLoop rest (charSetIndex + 1) (charsetNrUsed.set charSetIndex charset.min) pw1 r1
      else .error (.indexOutOfRange charSetIndex charsetNrUsed.length)

/-- The second loop of `New`,
`for len(pw) < requiredLength && i < lastAddIndex+n`.  The argument `usedFrom`
is the slice `charsetNrUsed[i:]`, so that `charsetNrUsed[i]` is its head and is
out of range exactly when it is empty; `usedLen` is `len(charsetNrUsed)`. -/
def fillLoop (charSets : List pwgCharSet) (requiredLength : Int) (n usedLen : Nat) :
    List Int → Nat → Nat → List Nat → Rand → Except Panic (List Nat × Rand)
  | usedFrom, i, lastAddIndex, pw, r =>
    if (pw.length : Int) < requiredLength ∧ i < lastAddIndex + n then
      if n = 0 then .error .divideByZero
      else
        match charSets[i % n]? with
        | none => .error (.indexOutOfRange (i % n) charSets.length)
        | some charSet =>
          match usedFrom with
          | [] => .error (.indexOutOfRange i usedLen)
          | nrUsed :: usedRest =>
            if nrUsed < charSet.max then
              match randomChar charSet.chars r with
              | .error e => .error e
              | .ok (c, r1) => fillLoop charSets requiredLength n usedLen usedRest (i + 1) i (pw ++ [c]) r1
            else fillLoop charSets requiredLength n usedLen usedRest (i + 1) lastAddIndex pw r
    else .ok (pw, r)

/-- The closure passed to `rand.Shuffle`: `pw[i], pw[j] = pw[j], pw[i]`. -/
def swap (pw : List Nat) (i j : Nat) : List Nat :=
  (pw.set i (pw.getD j 0)).set j (pw.getD i 0)

/-- The loop of `rand.Shuffle`, Fisher and Yates: for `i` from `k` down to 1,
swap the entries `i` and `j` with `j` random in `0..i`. -/
def shuffleLoop : Nat → List Nat → Rand → List Nat × Rand
  | 0, pw, r => (pw, r)
  | i + 1, pw, r => shuffleLoop i (swap pw (i + 1) (r 0 % (i + 2))) r.tail

/-- The call `rand.Shuffle(len(pw), swap)`. -/
def shuffle (pw : List Nat) (r : Rand) : List Nat × Rand :=
  shuffleLoop (pw.length - 1) pw r

/-- The method `pwg.New`. -/
def pwg.New (g : pwg) (requiredLength : Int) (r : Rand) : Except Panic (List Nat) :=
  let n := g.charSets.length
  match minLoop g.charSets 0 (List.replicate n 0) [] r with
  | .error e => .error e
  | .ok (charsetNrUsed, pw, r1) =>
    match fillLoop g.charSets requiredLength n charsetNrUsed.length charsetNrUsed 0 0 pw r1 with
    | .error e => .error e
    | .ok (pw1, r2) => .ok (shuffle pw1 r2).1

/-- The two errors of `Validate`, with the arguments of their messages. -/
inductive ValidateError where
  /-- too few of `chars` (min `min`, you have `have`) -/
  | tooFew (chars : List Nat) (min count : Int)
  /-- too many of `chars` (max `max`, you have `have`) -/
  | tooMany (chars : List Nat) (max count : Int)
  deriving DecidableEq

/-- The inner loop of the first loop of `Validate`, over the rules from index
`csi` on: count the rune `c` for every rule whose set contains it.  The index
`csi` is always in range, `charsetNrUsed` having one entry for each rule. -/
def countRune (c : Nat) : List pwgCharSet → Nat → List Int → List Int
  | [], _, charsetNrUsed => charsetNrUsed
  | cs :: rest, csi, charsetNrUsed =>
    countRune c rest (csi + 1)
      (if containsRune cs.chars c then charsetNrUsed.set csi (charsetNrUsed.getD csi 0 + 1)
       else charsetNrUsed)

/-- The first loop of `Validate`, over the runes of the password. -/
def countRunes (charSets : List pwgCharSet) : List Nat → List Int → List Int
  | [], charsetNrUsed => charsetNrUsed
  | c :: rest, charsetNrUsed => countRunes charSets rest (countRune c charSets 0 charsetNrUsed)

/-- The second loop of `Validate`, over the rules from index `csi` on: the
first violated bound. -/
def checkLoop : List pwgCharSet → Nat → List Int → GoError ValidateError
  | [], _, _ => none
  | cs :: rest, csi, charsetNrUsed =>
    if cs.min ≠ 0 ∧ charsetNrUsed.getD csi 0 < cs.min then
      some (.tooFew cs.chars cs.min (charsetNrUsed.getD csi 0))
    else if cs.max ≠ 0 ∧ charsetNrUsed.getD csi 0 > cs.max then
      some (.tooMany cs.chars cs.max (charsetNrUsed.getD csi 0))
    else checkLoop rest (csi + 1) charsetNrUsed

/-- The method `pwg.Validate`. -/
def pwg.Validate (g : pwg) (password : List Nat) : GoError ValidateError :=
  checkLoop g.charSets 0
    (countRunes g.charSets (runes password) (List.replicate g.charSets.length 0))

/-! ## identifier.go and snake.go -/

/-- The abstract syntax of a pattern of the package `regexp`, as far as the two
patterns of this package use it (character classes, concatenation, the star),
closed under the derivative. -/
inductive Regex where
  /-- matches nothing -/
  | empty
  /-- matches the empty string -/
  | eps
  /-- a character class `[...]`, a list of inclusive ranges of code points -/
  | cls (ranges : List (Nat × Nat))
  /-- concatenation -/
  | cat (r s : Regex)
  /-- alternation -/
  | alt (r s : Regex)
  /-- repetition `( )*` -/
  | star (r : Regex)
  deriving DecidableEq

/-- A rune belongs to a character class. -/
def inClass (ranges : List (Nat × Nat)) (c : Nat) : Bool :=
  ranges.any (fun p => decide (p.1 ≤ c ∧ c ≤ p.2))

/-- The pattern matches the empty string. -/
def Regex.nullable : Regex → Bool
  | .empty => false
  | .eps => true
  | .cls _ => false
  | .cat r s => r.nullable && s.nullable
  | .alt r s => r.nullable || s.nullable
  | .star _ => true

/-- The derivative of a pattern by a rune: it matches `t` exactly when the
pattern matches `c :: t`. -/
def Regex.deriv : Regex → Nat → Regex
  | .empty, _ => .empty
  | .eps, _ => .empty
  | .cls ranges, c => if inClass ranges c then .eps else .empty
  | .cat r s, c =>
    if r.nullable then .alt (.cat (r.deriv c) s) (s.deriv c) else .cat (r.deriv c) s
  | .alt r s, c => .alt (r.deriv c) (s.deriv c)
  | .star r, c => .cat (r.deriv c) (.star r)

/-- The whole of the rune sequence `t` matches the pattern. -/
def Regex.matchRunes : Regex → List Nat → Bool
  | r, [] => r.nullable
  | r, c :: t => (r.deriv c).matchRunes t

/-- The method `MatchString` of `regexp.MustCompile("^" + pattern + "$")`: with
both anchors (and no flag, so that `$` is the end of the text) the string
matches when the whole of its rune sequence matches `pattern`. -/
def MatchStringAnchored (pattern : Regex) (s : List Nat) : Bool :=
  pattern.matchRunes (runes s)

/-- The class `[a-zA-Z]`. -/
def clsLetter : List (Nat × Nat) := [(97, 122), (65, 90)]
/-- The class `[a-zA-Z0-9_]`. -/
def clsWord : List (Nat × Nat) := [(97, 122), (65, 90), (48, 57), (95, 95)]
/-- The class `[a-zA-Z0-9]`. -/
def clsAlnum : List (Nat × Nat) := [(97, 122), (65, 90), (48, 57)]
/-- The class `[a-z]`. -/
def clsLower : List (Nat × Nat) := [(97, 122)]
/-- The class `[a-z0-9_]`. -/
def clsLowerWord : List (Nat × Nat) := [(97, 122), (48, 57), (95, 95)]
/-- The class `[a-z0-9]`. -/
def clsLowerAlnum : List (Nat × Nat) := [(97, 122), (48, 57)]

/-- The constant `identifierPattern`, `[a-zA-Z]([a-zA-Z0-9_]*[a-zA-Z0-9])*`. -/
def identifierPattern : Regex :=
  .cat (.cls clsLetter) (.star (.cat (.star (.cls clsWord)) (.cls clsAlnum)))

/-- The function `IsIdentifier`. -/
def IsIdentifier (s : List Nat) : Bool := MatchStringAnchored identifierPattern s

/-- The constant `snakePattern`, `[a-z]([a-z0-9_]*[a-z0-9])*`. -/
def snakePattern : Regex :=
  .cat (.cls clsLower) (.star (.cat (.star (.cls clsLowerWord)) (.cls clsLowerAlnum)))

/-- The function `IsSnake`. -/
def IsSnake (s : List Nat) : Bool := MatchStringAnchored snakePattern s

/-! ## The hash of password.go: crypto/sha1 and the verb %X of fmt -/

/-- The operation `bits.RotateLeft32`. -/
def rotl32 (x k : Nat) : Nat := ((x <<< k) ||| (x >>> (32 - k))) % 2 ^ 32

/-- The complement `^b` of a `uint32`. -/
def not32 (x : Nat) : Nat := 2 ^ 32 - 1 - x % 2 ^ 32

/-- The state of the eighty rounds of `blockGeneric`: the circular buffer `w` of
sixteen words and the five working variables. -/
structure Rounds where
  w : List Nat
  a : Nat
  b : Nat
  c : Nat
  d : Nat
  e : Nat
  deriving DecidableEq

/-- The round `i` of `blockGeneric`: from round 16 on the word `w[i&0xf]` is
first replaced by the rotated sum of four earlier words; the function `f` and
the constant depend on the round. -/
def round (i : Nat) (s : Rounds) : Rounds :=
  let w := if i < 16 then s.w
    else s.w.set (i % 16)
      (rotl32 (s.w.getD ((i - 3) % 16) 0 ^^^ s.w.getD ((i - 8) % 16) 0 ^^^
        s.w.getD ((i - 14) % 16) 0 ^^^ s.w.getD (i % 16) 0) 1)
  let f := if i < 20 then (s.b &&& s.c) ||| (not32 s.b &&& s.d)
    else if i < 40 then s.b ^^^ s.c ^^^ s.d
    else if i < 60 then ((s.b ||| s.c) &&& s.d) ||| (s.b &&& s.c)
    else s.b ^^^ s.c ^^^ s.d
  let k := if i < 20 then 0x5A827999 else if i < 40 then 0x6ED9EBA1
    else if i < 60 then 0x8F1BBCDC else 0xCA62C1D6
  let t := (rotl32 s.a 5 + f + s.e + w.getD (i % 16) 0 + k) % 2 ^ 32
  { w := w, a := t, b := s.a, c := rotl32 s.b 30, d := s.c, e := s.d }

/-- The rounds `i`, `i + 1`, ..., `i + k - 1`. -/
def roundsFrom : Nat → Nat → Rounds → Rounds
  | 0, _, s => s
  | k + 1, i, s => roundsFrom k (i + 1) (round i s)

/-- The big-endian word of four bytes. -/
def beUint32 (p : List Nat) : Nat :=
  (p.getD 0 0 % 256) * 2 ^ 24 + (p.getD 1 0 % 256) * 2 ^ 16 + (p.getD 2 0 % 256) * 2 ^ 8 +
    p.getD 3 0 % 256

/-- The sixteen big-endian words of a chunk of 64 bytes. -/
def chunkWords (p : List Nat) : List Nat :=
  (List.range 16).map (fun i => beUint32 (p.drop (4 * i)))

/-- The five words `h` of the type `digest` of `crypto/sha1`. -/
structure HashWords where
  h0 : Nat
  h1 : Nat
  h2 : Nat
  h3 : Nat
  h4 : Nat
  deriving DecidableEq

/-- One turn of the outer loop of `blockGeneric`: the words `h` after the chunk
of 64 bytes at the head of `p`. -/
def blockChunk (h : HashWords) (p : List Nat) : HashWords :=
  let s := roundsFrom 80 0 { w := chunkWords p, a := h.h0, b := h.h1, c := h.h2, d := h.h3, e := h.h4 }
  { h0 := (h.h0 + s.a) % 2 ^ 32, h1 := (h.h1 + s.b) % 2 ^ 32, h2 := (h.h2 + s.c) % 2 ^ 32,
    h3 := (h.h3 + s.d) % 2 ^ 32, h4 := (h.h4 + s.e) % 2 ^ 32 }

/-- The loop `for len(p) >= chunk` of `blockGeneric`, with `k` turns left. -/
def blockLoop : Nat → HashWords → List Nat → HashWords
  | 0, h, _ => h
  | k + 1, h, p => blockLoop k (blockChunk h p) (p.drop 64)

/-- The function `block` of `crypto/sha1`: it consumes the whole chunks of `p`. -/
def block (h : HashWords) (p : List Nat) : HashWords := blockLoop (p.length / 64) h p

/-- The type `digest` of `crypto/sha1`: the words `h`, the bytes `x[:nx]` not
yet consumed, and the length `len` of the message, a `uint64`. -/
structure digest where
  h : HashWords
  x : List Nat
  len : Nat
  deriving DecidableEq

/-- The function `sha1.New`. -/
def sha1New : digest :=
  { h := { h0 := 0x67452301, h1 := 0xEFCDAB89, h2 := 0x98BADCFE, h3 := 0x10325476,
           h4 := 0xC3D2E1F0 },
    x := [], len := 0 }

/-- The first statement of `digest.Write`, `if d.nx > 0`: top up the buffer `x`
with bytes of `p` and consume it when it is full.  The result is the words,
the buffer and what is left of `p`. -/
def writeBuffer (h : HashWords) (x p : List Nat) : HashWords × List Nat × List Nat :=
  if x.length > 0 then
    if (x ++ p.take (min (64 - x.length) p.length)).length = 64 then
      (block h (x ++ p.take (min (64 - x.length) p.length)), [],
        p.drop (min (64 - x.length) p.length))
    else (h, x ++ p.take (min (64 - x.length) p.length), p.drop (min (64 - x.length) p.length))
  else (h, x, p)

/-- The second statement of `digest.Write`, `if len(p) >= chunk`: consume the
whole chunks of `p`, their length being `len(p) &^ (chunk - 1)`. -/
def writeChunks (h : HashWords) (p : List Nat) : HashWords × List Nat :=
  if p.length ≥ 64 then
    (block h (p.take (p.length - p.length % 64)), p.drop (p.length - p.length % 64))
  else (h, p)

/-- The third statement of `digest.Write`, `if len(p) > 0`: what is left of `p`
becomes the buffer. -/
def writeKeep (x p : List Nat) : List Nat := if p.length > 0 then p else x

/-- The method `digest.Write`. -/
def digest.Write (d : digest) (p : List Nat) : digest :=
  { h := (writeChunks (writeBuffer d.h d.x p).1 (writeBuffer d.h d.x p).2.2).1,
    x := writeKeep (writeBuffer d.h d.x p).2.1
      (writeChunks (writeBuffer d.h d.x p).1 (writeBuffer d.h d.x p).2.2).2,
    len := (d.len + p.length) % 2 ^ 64 }

/-- The bytes that `byteorder.BePutUint64` stores. -/
def bePutUint64 (v : Nat) : List Nat :=
  (List.range 8).map (fun i => v / 2 ^ (8 * (7 - i)) % 256)

/-- The bytes that `byteorder.BePutUint32` stores. -/
def bePutUint32 (v : Nat) : List Nat :=
  [v / 2 ^ 24 % 256, v / 2 ^ 16 % 256, v / 2 ^ 8 % 256, v % 256]

/-- The slice `padlen` of `digest.checkSum`: the byte 0x80, zeros up to 56 bytes
modulo 64, and the length of the message in bits. -/
def padlen (len : Nat) : List Nat :=
  let t := if len % 64 < 56 then 56 - len % 64 else 64 + 56 - len % 64
  (0x80 :: List.replicate (t - 1) 0) ++ bePutUint64 (len * 8 % 2 ^ 64)

/-- The method `digest.Sum` with a nil argument: the twenty bytes of the five
words after the padding is written. -/
def digest.Sum (d : digest) : List Nat :=
  let d1 := d.Write (padlen d.len)
  bePutUint32 d1.h.h0 ++ bePutUint32 d1.h.h1 ++ bePutUint32 d1.h.h2 ++ bePutUint32 d1.h.h3 ++
    bePutUint32 d1.h.h4

/-- The digit of the verb `%X` for a value below 16, one of `0123456789ABCDEF`. -/
def hexDigit (n : Nat) : Nat := if n < 10 then 48 + n else 55 + n

/-- The verb `%X` of `fmt` on a byte slice: two uppercase digits for each
byte. -/
def sprintfX (p : List Nat) : List Nat :=
  p.flatMap (fun c => [hexDigit (c / 16 % 16), hexDigit (c % 16)])

/-- The package-level variables of the package: the salt. -/
structure Package where
  salt : List Nat
  deriving DecidableEq

/-- The declaration `var salt = ""` and the function `init`, `envSalt` being the
value of `os.Getenv("PASSWORD_SALT")`. -/
def init (envSalt : List Nat) : Package :=
  let pkg : Package := { salt := [] }
  if envSalt ≠ [] then { pkg with salt := envSalt } else pkg

/-- The function `PasswordHash`, in a package whose variables are `pkg`. -/
def Package.PasswordHash (_pkg : Package) (values : List (List Nat)) : List Nat :=
  let hash := values.foldl (fun hash s => hash.Write s) sha1New
  sprintfX hash.Sum

/-- The function `sha1.Sum` of `crypto/sha1`, the SHA-1 digest of a message in
one call: a fresh digest, one `Write`, the checksum. -/
def sha1Sum (data : List Nat) : List Nat := (sha1New.Write data).Sum

/-- The SHA-1 digest as the standard defines it: the message is padded to a
whole number of chunks, the chunks are consumed in order from the initial
words, and the five words are stored big-endian. -/
def sha1Standard (m : List Nat) : List Nat :=
  let padded := m ++ padlen (m.length % 2 ^ 64)
  let h := blockLoop (padded.length / 64) sha1New.h padded
  bePutUint32 h.h0 ++ bePutUint32 h.h1 ++ bePutUint32 h.h2 ++ bePutUint32 h.h3 ++
    bePutUint32 h.h4

/-- The digest that has consumed the message `m` in any number of writes: the
whole chunks of `m` are in the words, the rest is in the buffer. -/
def digestOf (m : List Nat) : digest :=
  { h := blockLoop (m.length / 64) sha1New.h m, x := m.drop (64 * (m.length / 64)),
    len := m.length % 2 ^ 64 }

/-- An uppercase hexadecimal digit, `0`..`9` or `A`..`F`. -/
def isUpperHex (c : Nat) : Prop := (48 ≤ c ∧ c ≤ 57) ∨ (65 ≤ c ∧ c ≤ 70)

instance (c : Nat) : Decidable (isUpperHex c) := by unfold isUpperHex; infer_instance

/-! ## Quantities of the specification -/

/-- The count of the specification for a rule: the number of characters (runes)
of the password that occur in the character set of the rule. -/
def ruleCount (cs : pwgCharSet) (password : List Nat) : Nat :=
  (runes password).countP (fun c => containsRune cs.chars c)

/-- The bounds of the specification for one rule, a bound of 0 not applying. -/
def ruleSatisfied (cs : pwgCharSet) (password : List Nat) : Prop :=
  (cs.min = 0 ∨ (ruleCount cs password : Int) ≥ cs.min) ∧
  (cs.max = 0 ∨ (ruleCount cs password : Int) ≤ cs.max)

/-- The first violated bound among the rules, the count of a rule being given by
`count`: the index-free form of the second loop of `Validate`. -/
def firstViolation (count : pwgCharSet → Int) : List pwgCharSet → GoError ValidateError
  | [] => none
  | cs :: rest =>
    if cs.min ≠ 0 ∧ count cs < cs.min then some (.tooFew cs.chars cs.min (count cs))
    else if cs.max ≠ 0 ∧ count cs > cs.max then some (.tooMany cs.chars cs.max (count cs))
    else firstViolation count rest

/-- The language of a pattern: `Matches r t` when the rune sequence `t` is a word
of the regular language that `r` denotes. -/
inductive Regex.Matches : Regex → List Nat → Prop
  | eps : Regex.Matches .eps []
  | cls {ranges : List (Nat × Nat)} {c : Nat} :
      inClass ranges c = true → Regex.Matches (.cls ranges) [c]
  | cat {r s : Regex} {x y : List Nat} :
      Regex.Matches r x → Regex.Matches s y → Regex.Matches (.cat r s) (x ++ y)
  | altL {r s : Regex} {x : List Nat} : Regex.Matches r x → Regex.Matches (.alt r s) x
  | altR {r s : Regex} {x : List Nat} : Regex.Matches s x → Regex.Matches (.alt r s) x
  | starNil {r : Regex} : Regex.Matches (.star r) []
  | starCons {r : Regex} {x y : List Nat} :
      Regex.Matches r x → Regex.Matches (.star r) y → Regex.Matches (.star r) (x ++ y)

/-- An ASCII lowercase letter `a`..`z`. -/
def isLower (c : Nat) : Prop := 97 ≤ c ∧ c ≤ 122
/-- An ASCII uppercase letter `A`..`Z`. -/
def isUpper (c : Nat) : Prop := 65 ≤ c ∧ c ≤ 90
/-- An ASCII letter. -/
def isLetter (c : Nat) : Prop := isLower c ∨ isUpper c
/-- An ASCII digit `0`..`9`. -/
def isDigit (c : Nat) : Prop := 48 ≤ c ∧ c ≤ 57
/-- The underscore. -/
def isUnderscore (c : Nat) : Prop := c = 95

instance (c : Nat) : Decidable (isLower c) := by unfold isLower; infer_instance
instance (c : Nat) : Decidable (isUpper c) := by unfold isUpper; infer_instance
instance (c : Nat) : Decidable (isLetter c) := by unfold isLetter; infer_instance
instance (c : Nat) : Decidable (isDigit c) := by unfold isDigit; infer_instance
instance (c : Nat) : Decidable (isUnderscore c) := by unfold isUnderscore; infer_instance

/-- The shape that the specification gives for both patterns: the sequence is
non-empty, its first character satisfies `first`, its last character satisfies
`last` and every character satisfies `every`. -/
def hasShape (first last every : Nat → Prop) (t : List Nat) : Prop :=
  t ≠ [] ∧ (∃ c, t.head? = some c ∧ first c) ∧ (∃ c, t.getLast? = some c ∧ last c) ∧
    ∀ c ∈ t, every c

/-- The bytes that the first loop of `New` appends for a rule: `min` bytes of
the set of the rule. -/
def minBlock (cs : pwgCharSet) (b : List Nat) : Prop :=
  b.length = cs.min.toNat ∧ ∀ c ∈ b, c ∈ cs.chars

/-- The bytes that the second loop of `New` appends for a rule: none, or one
byte of the set of the rule when `min < max`. -/
def fillExtra (cs : pwgCharSet) (e : List Nat) : Prop :=
  e = [] ∨ (cs.min < cs.max ∧ ∃ c ∈ cs.chars, e = [c])

/-- The bytes that `New` draws for a rule: `min` bytes of its set, and
possibly one more when `min < max`. -/
def rulePiece (cs : pwgCharSet) (p : List Nat) : Prop :=
  (∀ c ∈ p, c ∈ cs.chars) ∧
    (p.length = cs.min.toNat ∨ (p.length = cs.min.toNat + 1 ∧ cs.min < cs.max))

/-- The sum of the min counts of the rules, as the number of bytes that the
first loop of `New` appends. -/
def sumMin (css : List pwgCharSet) : Nat := (css.map (fun cs => cs.min.toNat)).sum

/-- The sum `S` of the min counts of the rules. -/
def sumMinInt (css : List pwgCharSet) : Int := (css.map (fun cs => cs.min)).sum

/-- The number `k` of rules with `min < max`. -/
def roomy (css : List pwgCharSet) : Nat := css.countP (fun cs => decide (cs.min < cs.max))

/-- A valid configuration, in the words of the specification: each rule has a
non-empty set of unique characters, `min >= 0`, and `min <= max` whenever
`max != 0`. -/
def validConfig (g : pwg) : Prop :=
  ∀ cs ∈ g.charSets, cs.chars ≠ [] ∧ cs.chars.Nodup ∧ 0 ≤ cs.min ∧ (cs.max ≠ 0 → cs.min ≤ cs.max)

/-- The character sets consist of single-byte characters (bytes below 128). -/
def singleByte (g : pwg) : Prop := ∀ cs ∈ g.charSets, ∀ b ∈ cs.chars, b < 128

/-- The character sets of the rules are pairwise disjoint. -/
def pairwiseDisjoint (g : pwg) : Prop :=
  g.charSets.Pairwise (fun a b => ∀ c ∈ a.chars, c ∉ b.chars)

/-! ## Configurations used as examples -/

/-- The generator that `NewPasswordGenerator` builds from no options (the call
returns: there is no option to apply). -/
def defaultGenerator : pwg :=
  match NewPasswordGenerator [] with
  | .ok (g, _) => g
  | .error _ => { charSets := [] }

/-- One rule whose set is the two-byte character U+00E9:
`CharSet(1, 2, "\u00e9")`, the bytes 195 and 169. -/
def accentRule : pwg := { charSets := [{ min := 1, max := 2, chars := [195, 169] }] }

/-- A random source: the draws 0, 1, 1, 1, ... -/
def drawsKeep : Rand := fun k => min k 1

/-- A random source: the draws 0, 1, 0, 0, ... -/
def drawsSwap : Rand := fun k => if k = 1 then 1 else 0

/-- Two rules whose sets share the character `a`:
`CharSet(1, 1, "a"), CharSet(1, 1, "ab")`. -/
def overlappingRules : pwg :=
  { charSets := [{ min := 1, max := 1, chars := bytes "a" },
                 { min := 1, max := 1, chars := bytes "ab" }] }

/-- One rule with room left below its max: `CharSet(0, 5, "a")`. -/
def roomyRule : pwg := { charSets := [{ min := 0, max := 5, chars := bytes "a" }] }

/-- Two rules with room left below their max:
`CharSet(0, 1, "a"), CharSet(0, 1, "b")`. -/
def twoRoomyRules : pwg :=
  { charSets := [{ min := 0, max := 1, chars := bytes "a" },
                 { min := 0, max := 1, chars := bytes "b" }] }

/-- Two rules with disjoint sets: `CharSet(2, 3, "ab"), CharSet(1, 0, "x")`. -/
def disjointRules : pwg :=
  { charSets := [{ min := 2, max := 3, chars := bytes "ab" },
                 { min := 1, max := 0, chars := bytes "x" }] }

/-- A rule of letters and a rule of digits:
`CharSet(1, 2, "abc"), CharSet(2, 2, "01")`. -/
def lettersAndDigits : pwg :=
  { charSets := [{ min := 1, max := 2, chars := bytes "abc" },
                 { min := 2, max := 2, chars := bytes "01" }] }

/-- A random source: the successive calls return 0, 1, 2, ... -/
def countingRand : Rand := fun k => k

/-! ## Runes of single-byte strings -/

theorem decodeRune_ascii (s0 : Nat) (rest : List Nat) (h : s0 < 128) :
    decodeRune (s0 :: rest) = (s0, 1) := by
  simp [decodeRune, h]

theorem decodeRune_lt (s0 : Nat) (rest : List Nat)
    (h : (decodeRune (s0 :: rest)).1 < 128) : s0 < 128 := by
  by_contra hge
  revert h
  unfold decodeRune
  simp only [RuneError]
  split_ifs <;> try omega
  all_goals (split <;> try (split_ifs <;> (simp only []; omega)))
  all_goals (intro h; simp only [] at h; omega)

/-- A string of single-byte characters (bytes below 128) is its own rune
sequence. -/
theorem runes_ascii (s : List Nat) (h : ∀ b ∈ s, b < 128) : runes s = s := by
  unfold runes
  induction s with
  | nil => rfl
  | cons b s ih =>
    have hb : b < 128 := h b (List.mem_cons_self _ _)
    rw [runesFrom, decodeRune_ascii b s hb]
    simp only [Nat.sub_self, List.cons.injEq, true_and]
    exact ih (fun c hc => h c (List.mem_cons_of_mem _ hc))

/-- A string all of whose runes are below 128 consists of single-byte
characters. -/
theorem ascii_of_runes (s : List Nat) (h : ∀ c ∈ runes s, c < 128) : ∀ b ∈ s, b < 128 := by
  unfold runes at h
  induction s with
  | nil => intro b hb; cases hb
  | cons b s ih =>
    rw [runesFrom] at h
    have hb : b < 128 := decodeRune_lt b s (h _ (List.mem_cons_self _ _))
    rw [decodeRune_ascii b s hb] at h
    simp only [Nat.sub_self] at h
    intro c hc
    rcases List.mem_cons.1 hc with rfl | hc
    · exact hb
    · exact ih (fun d hd => h d (List.mem_cons_of_mem _ hd)) c hc

/-! ## Validate -/

theorem getD_append_cons (pre mid : List Int) (u : Int) :
    (pre ++ u :: mid).getD pre.length 0 = u := by
  induction pre with
  | nil => simp
  | cons a pre ih => simpa using ih

theorem set_append_cons (pre mid : List Int) (u v : Int) :
    (pre ++ u :: mid).set pre.length v = pre ++ v :: mid := by
  induction pre with
  | nil => simp
  | cons a pre ih => simp [ih]

theorem countRune_eq (c : Nat) (css : List pwgCharSet) :
    ∀ (pre mid : List Int), mid.length = css.length →
      countRune c css pre.length (pre ++ mid) =
        pre ++ List.zipWith (fun cs u => if containsRune cs.chars c then u + 1 else u) css mid := by
  induction css with
  | nil => intro pre mid h; simp at h; simp [countRune, h]
  | cons cs rest ih =>
    intro pre mid h
    cases mid with
    | nil => simp at h
    | cons u mid =>
      simp only [List.length_cons, Nat.add_right_cancel_iff] at h
      have key : ∀ v : Int, countRune c rest (pre.length + 1) (pre ++ v :: mid) =
          pre ++ v :: List.zipWith (fun cs u => if containsRune cs.chars c then u + 1 else u) rest mid := by
        intro v
        have := ih (pre ++ [v]) mid h
        simpa using this
      by_cases hc : containsRune cs.chars c = true
      · simp only [countRune, hc, if_true, getD_append_cons, set_append_cons, key,
          List.zipWith_cons_cons]
      · simp only [countRune, hc, key, List.zipWith_cons_cons]
        simp [key]

theorem countRunes_eq (css : List pwgCharSet) (rs : List Nat) :
    ∀ (used : List Int), used.length = css.length →
      countRunes css rs used =
        List.zipWith (fun (cs : pwgCharSet) (u : Int) =>
          u + ((rs.countP (fun c => containsRune cs.chars c) : Nat) : Int)) css used := by
  induction rs with
  | nil =>
    intro used h
    simp only [countRunes, List.countP_nil, Nat.cast_zero, add_zero]
    induction css generalizing used with
    | nil => simp at h; simp [h]
    | cons cs rest ih =>
      cases used with
      | nil => simp at h
      | cons u used => simp at h; simp [← ih used h]
  | cons c rs ih =>
    intro used h
    have h1 := countRune_eq c css [] used h
    simp only [List.length_nil, List.nil_append] at h1
    rw [countRunes, h1, ih _ (by simp [h])]
    clear h1 ih
    induction css generalizing used with
    | nil => simp
    | cons cs rest ih2 =>
      cases used with
      | nil => simp
      | cons u used =>
        simp only [List.length_cons, Nat.add_right_cancel_iff] at h
        simp only [List.zipWith_cons_cons, List.cons.injEq]
        refine ⟨?_, ih2 used h⟩
        by_cases hc : containsRune cs.chars c = true
        · simp [hc, List.countP_cons]; ring
        · simp [hc, List.countP_cons]

theorem countRunes_replicate (css : List pwgCharSet) (rs : List Nat) :
    countRunes css rs (List.replicate css.length 0) =
      css.map (fun cs => ((rs.countP (fun c => containsRune cs.chars c) : Nat) : Int)) := by
  rw [countRunes_eq css rs _ (by simp)]
  induction css with
  | nil => simp
  | cons cs rest ih => simp [List.replicate_succ, ih]

theorem checkLoop_eq (count : pwgCharSet → Int) (css : List pwgCharSet) :
    ∀ (pre : List Int), checkLoop css pre.length (pre ++ css.map count) = firstViolation count css := by
  induction css with
  | nil => intro pre; simp [checkLoop, firstViolation]
  | cons cs rest ih =>
    intro pre
    have h := ih (pre ++ [count cs])
    simp only [List.length_append, List.length_singleton, List.append_assoc, List.singleton_append] at h
    simp only [checkLoop, firstViolation, List.map_cons, h, getD_append_cons]

theorem Validate_eq_firstViolation (g : pwg) (password : List Nat) :
    g.Validate password = firstViolation (fun cs => (ruleCount cs password : Int)) g.charSets := by
  unfold pwg.Validate
  rw [countRunes_replicate]
  exact checkLoop_eq (fun cs => (ruleCount cs password : Int)) g.charSets []

theorem firstViolation_eq_none (count : pwgCharSet → Int) (css : List pwgCharSet) :
    firstViolation count css = none ↔
      ∀ cs ∈ css, (cs.min = 0 ∨ count cs ≥ cs.min) ∧ (cs.max = 0 ∨ count cs ≤ cs.max) := by
  induction css with
  | nil => simp [firstViolation]
  | cons cs rest ih =>
    simp only [firstViolation, List.mem_cons, forall_eq_or_imp]
    by_cases h1 : cs.min ≠ 0 ∧ count cs < cs.min
    · rw [if_pos h1]
      constructor
      · intro h; cases h
      · rintro ⟨⟨h | h, _⟩, _⟩
        · exact absurd h h1.1
        · omega
    · rw [if_neg h1]
      by_cases h2 : cs.max ≠ 0 ∧ count cs > cs.max
      · rw [if_pos h2]
        constructor
        · intro h; cases h
        · rintro ⟨⟨_, h | h⟩, _⟩
          · exact absurd h h2.1
          · omega
      · rw [if_neg h2, ih]
        constructor
        · intro h
          refine ⟨⟨?_, ?_⟩, h⟩
          · by_cases hm : cs.min = 0
            · exact Or.inl hm
            · right; by_contra hlt; exact h1 ⟨hm, by omega⟩
          · by_cases hm : cs.max = 0
            · exact Or.inl hm
            · right; by_contra hlt; exact h2 ⟨hm, by omega⟩
        · intro h; exact h.2

/-! ## Patterns -/

theorem Regex.Matches.nil_nullable {r : Regex} {t : List Nat} (h : r.Matches t) :
    t = [] → r.nullable = true := by
  induction h with
  | eps => intro _; rfl
  | cls _ => intro h; cases h
  | cat _ _ ih1 ih2 =>
    intro h
    simp only [List.append_eq_nil] at h
    simp [Regex.nullable, ih1 h.1, ih2 h.2]
  | altL _ ih => intro h; simp [Regex.nullable, ih h]
  | altR _ ih => intro h; simp [Regex.nullable, ih h]
  | starNil => intro _; rfl
  | starCons _ _ _ _ => intro _; rfl

theorem Regex.nullable_iff (r : Regex) : r.nullable = true ↔ r.Matches [] := by
  constructor
  · induction r with
    | empty => intro h; cases h
    | eps => intro _; exact .eps
    | cls _ => intro h; cases h
    | cat r s ihr ihs =>
      intro h
      simp only [Regex.nullable, Bool.and_eq_true] at h
      exact .cat (ihr h.1) (ihs h.2)
    | alt r s ihr ihs =>
      intro h
      simp only [Regex.nullable, Bool.or_eq_true] at h
      rcases h with h | h
      · exact .altL (ihr h)
      · exact .altR (ihs h)
    | star r _ => intro _; exact .starNil
  · intro h; exact h.nil_nullable rfl

theorem Regex.Matches.star_cons_inv {q : Regex} {t : List Nat} (h : q.Matches t) :
    ∀ (r : Regex) (c : Nat) (u : List Nat), q = .star r → t = c :: u →
      ∃ x y, u = x ++ y ∧ r.Matches (c :: x) ∧ (Regex.star r).Matches y := by
  induction h with
  | eps => intro r c u hq; cases hq
  | cls _ => intro r c u hq; cases hq
  | cat _ _ _ _ => intro r c u hq; cases hq
  | altL _ _ => intro r c u hq; cases hq
  | altR _ _ => intro r c u hq; cases hq
  | starNil => intro r c u _ ht; cases ht
  | @starCons r0 x y hx hy _ ihy =>
    intro r c u hq ht
    cases hq
    cases x with
    | nil => exact ihy _ c u rfl (by simpa using ht)
    | cons a x =>
      simp only [List.cons_append, List.cons.injEq] at ht
      obtain ⟨rfl, rfl⟩ := ht
      exact ⟨x, y, rfl, hx, hy⟩

theorem Regex.deriv_iff (r : Regex) : ∀ (c : Nat) (t : List Nat),
    (r.deriv c).Matches t ↔ r.Matches (c :: t) := by
  induction r with
  | empty => intro c t; constructor <;> intro h <;> cases h
  | eps => intro c t; constructor <;> intro h <;> cases h
  | cls ranges =>
    intro c t
    simp only [Regex.deriv]
    constructor
    · intro h
      by_cases hc : inClass ranges c = true
      · rw [if_pos hc] at h; cases h; exact .cls hc
      · rw [if_neg hc] at h; cases h
    · intro h
      cases h with
      | cls hc => rw [if_pos hc]; exact .eps
  | cat r s ihr ihs =>
    intro c t
    have split : (Regex.cat r s).Matches (c :: t) ↔
        (r.Matches [] ∧ s.Matches (c :: t)) ∨
        ∃ x y, t = x ++ y ∧ r.Matches (c :: x) ∧ s.Matches y := by
      constructor
      · intro h
        generalize hw : c :: t = w at h
        cases h with
        | @cat _ _ x y hx hy =>
          cases x with
          | nil => left; simp only [List.nil_append] at hw; subst hw; exact ⟨hx, hy⟩
          | cons a x =>
            right
            simp only [List.cons_append, List.cons.injEq] at hw
            obtain ⟨rfl, rfl⟩ := hw
            exact ⟨x, y, rfl, hx, hy⟩
      · rintro (⟨h1, h2⟩ | ⟨x, y, rfl, h1, h2⟩)
        · simpa using Regex.Matches.cat h1 h2
        · simpa using Regex.Matches.cat h1 h2
    have left : (Regex.cat (r.deriv c) s).Matches t ↔
        ∃ x y, t = x ++ y ∧ r.Matches (c :: x) ∧ s.Matches y := by
      constructor
      · intro h
        cases h with
        | @cat _ _ x y hx hy => exact ⟨x, y, rfl, (ihr c x).1 hx, hy⟩
      · rintro ⟨x, y, rfl, h1, h2⟩
        exact .cat ((ihr c x).2 h1) h2
    rw [split]
    simp only [Regex.deriv]
    by_cases hn : r.nullable = true
    · rw [if_pos hn]
      constructor
      · intro h
        cases h with
        | altL h => exact Or.inr (left.1 h)
        | altR h => exact Or.inl ⟨(Regex.nullable_iff r).1 hn, (ihs c t).1 h⟩
      · rintro (⟨_, h2⟩ | h)
        · exact .altR ((ihs c t).2 h2)
        · exact .altL (left.2 h)
    · rw [if_neg hn]
      constructor
      · intro h; exact Or.inr (left.1 h)
      · rintro (⟨h1, _⟩ | h)
        · exact absurd ((Regex.nullable_iff r).2 h1) hn
        · exact left.2 h
  | alt r s ihr ihs =>
    intro c t
    simp only [Regex.deriv]
    constructor
    · intro h
      cases h with
      | altL h => exact .altL ((ihr c t).1 h)
      | altR h => exact .altR ((ihs c t).1 h)
    · intro h
      cases h with
      | altL h => exact .altL ((ihr c t).2 h)
      | altR h => exact .altR ((ihs c t).2 h)
  | star r ih =>
    intro c t
    simp only [Regex.deriv]
    constructor
    · intro h
      cases h with
      | @cat _ _ x y hx hy =>
        simpa using Regex.Matches.starCons ((ih c x).1 hx) hy
    · intro h
      obtain ⟨x, y, rfl, hx, hy⟩ := h.star_cons_inv r c t rfl rfl
      exact .cat ((ih c x).2 hx) hy

theorem Regex.matchRunes_iff (r : Regex) (t : List Nat) :
    r.matchRunes t = true ↔ r.Matches t := by
  induction t generalizing r with
  | nil => simpa [Regex.matchRunes] using Regex.nullable_iff r
  | cons c t ih => rw [Regex.matchRunes, ih, Regex.deriv_iff]

theorem Regex.Matches.star_induction {r : Regex} {P : List Nat → Prop} (h0 : P [])
    (hstep : ∀ x y, r.Matches x → P y → P (x ++ y)) {t : List Nat}
    (h : (Regex.star r).Matches t) : P t := by
  generalize hq : Regex.star r = q at h
  induction h with
  | eps => cases hq
  | cls _ => cases hq
  | cat _ _ _ _ => cases hq
  | altL _ _ => cases hq
  | altR _ _ => cases hq
  | starNil => exact h0
  | starCons hx _ _ ihy =>
    cases hq
    exact hstep _ _ hx (ihy rfl)

theorem star_cls_iff (W : List (Nat × Nat)) (t : List Nat) :
    (Regex.star (.cls W)).Matches t ↔ ∀ c ∈ t, inClass W c = true := by
  constructor
  · intro h
    refine Regex.Matches.star_induction (P := fun t => ∀ c ∈ t, inClass W c = true) ?_ ?_ h
    · intro c hc; cases hc
    · intro x y hx hy c hc
      cases hx with
      | cls hin =>
        simp only [List.singleton_append, List.mem_cons] at hc
        rcases hc with rfl | hc
        · exact hin
        · exact hy c hc
  · intro h
    induction t with
    | nil => exact .starNil
    | cons c t ih =>
      have h1 : (Regex.cls W).Matches [c] := .cls (h c (List.mem_cons_self _ _))
      have h2 := ih (fun d hd => h d (List.mem_cons_of_mem _ hd))
      simpa using Regex.Matches.starCons h1 h2

/-- The words of `([W]*[A])*`, for a class `A` included in the class `W`: every
rune is in `W` and the last one, if any, is in `A`. -/
theorem star_tail_iff (W A : List (Nat × Nat))
    (hAW : ∀ c, inClass A c = true → inClass W c = true) (t : List Nat) :
    (Regex.star (.cat (.star (.cls W)) (.cls A))).Matches t ↔
      (∀ c ∈ t, inClass W c = true) ∧
        (t = [] ∨ ∃ a, t.getLast? = some a ∧ inClass A a = true) := by
  constructor
  · intro h
    refine Regex.Matches.star_induction
      (P := fun t => (∀ c ∈ t, inClass W c = true) ∧
        (t = [] ∨ ∃ a, t.getLast? = some a ∧ inClass A a = true)) ?_ ?_ h
    · exact ⟨fun c hc => (by cases hc), Or.inl rfl⟩
    · rintro x y hx ⟨hy1, hy2⟩
      cases hx with
      | @cat _ _ w z hw hz =>
        cases hz with
        | @cls _ a ha =>
          have hw1 := (star_cls_iff W w).1 hw
          refine ⟨?_, Or.inr ?_⟩
          · intro c hc
            simp only [List.mem_append, List.mem_singleton] at hc
            rcases hc with (hc | rfl) | hc
            · exact hw1 c hc
            · exact hAW _ ha
            · exact hy1 c hc
          · rcases hy2 with rfl | ⟨b, hb, hbA⟩
            · exact ⟨a, by simp, ha⟩
            · exact ⟨b, by rw [List.getLast?_append, hb]; rfl, hbA⟩
  · rintro ⟨h1, h2⟩
    rcases h2 with rfl | ⟨a, ha, haA⟩
    · exact .starNil
    · have hne : t ≠ [] := by rintro rfl; simp at ha
      obtain ⟨w, b, rfl⟩ : ∃ w b, t = w ++ [b] := by
        rcases List.eq_nil_or_concat t with h | ⟨w, b, h⟩
        · exact absurd h hne
        · exact ⟨w, b, by simpa using h⟩
      have hb : b = a := by simpa using ha
      subst hb
      have hw : (Regex.star (.cls W)).Matches w :=
        (star_cls_iff W w).2 (fun c hc => h1 c (by simp [hc]))
      have hq : (Regex.cat (.star (.cls W)) (.cls A)).Matches (w ++ [b]) := .cat hw (.cls haA)
      simpa using Regex.Matches.starCons hq .starNil

/-- The words of `[L]([W]*[A])*` for classes `L` included in `A` included in
`W`: the shape that the specification describes. -/
theorem shape_iff (L W A : List (Nat × Nat))
    (hLA : ∀ c, inClass L c = true → inClass A c = true)
    (hAW : ∀ c, inClass A c = true → inClass W c = true) (t : List Nat) :
    (Regex.cat (.cls L) (.star (.cat (.star (.cls W)) (.cls A)))).Matches t ↔
      hasShape (fun c => inClass L c = true) (fun c => inClass A c = true)
        (fun c => inClass W c = true) t := by
  unfold hasShape
  constructor
  · intro h
    cases h with
    | @cat _ _ x y hx hy =>
      cases hx with
      | @cls _ c hc =>
        obtain ⟨h1, h2⟩ := (star_tail_iff W A hAW y).1 hy
        refine ⟨by simp, ⟨c, by simp, hc⟩, ?_, ?_⟩
        · rcases h2 with rfl | ⟨a, ha, haA⟩
          · exact ⟨c, by simp, hLA c hc⟩
          · exact ⟨a, by rw [List.getLast?_append, ha]; rfl, haA⟩
        · intro d hd
          simp only [List.singleton_append, List.mem_cons] at hd
          rcases hd with rfl | hd
          · exact hAW _ (hLA _ hc)
          · exact h1 d hd
  · rintro ⟨hne, ⟨c, hc, hcL⟩, ⟨a, ha, haA⟩, hall⟩
    cases t with
    | nil => exact absurd rfl hne
    | cons d t =>
      simp only [List.head?_cons, Option.some.injEq] at hc
      subst hc
      have ht : (Regex.star (.cat (.star (.cls W)) (.cls A))).Matches t := by
        refine (star_tail_iff W A hAW t).2 ⟨fun e he => hall e (List.mem_cons_of_mem _ he), ?_⟩
        cases t with
        | nil => exact Or.inl rfl
        | cons e t => exact Or.inr ⟨a, by simpa using ha, haA⟩
      simpa using Regex.Matches.cat (Regex.Matches.cls hcL) ht

theorem inClass_clsLetter (c : Nat) : inClass clsLetter c = true ↔ isLetter c := by
  simp only [inClass, clsLetter, isLetter, isLower, isUpper, List.any_cons, List.any_nil,
    Bool.or_false, Bool.or_eq_true, decide_eq_true_eq]

theorem inClass_clsAlnum (c : Nat) : inClass clsAlnum c = true ↔ isLetter c ∨ isDigit c := by
  simp only [inClass, clsAlnum, isLetter, isLower, isUpper, isDigit, List.any_cons, List.any_nil,
    Bool.or_false, Bool.or_eq_true, decide_eq_true_eq]
  tauto

theorem inClass_clsWord (c : Nat) :
    inClass clsWord c = true ↔ isLetter c ∨ isDigit c ∨ isUnderscore c := by
  simp only [inClass, clsWord, isLetter, isLower, isUpper, isDigit, isUnderscore, List.any_cons,
    List.any_nil, Bool.or_false, Bool.or_eq_true, decide_eq_true_eq]
  constructor
  · rintro (h | h | h | h)
    · exact Or.inl (Or.inl h)
    · exact Or.inl (Or.inr h)
    · exact Or.inr (Or.inl h)
    · exact Or.inr (Or.inr (by omega))
  · rintro ((h | h) | h | h)
    · exact Or.inl h
    · exact Or.inr (Or.inl h)
    · exact Or.inr (Or.inr (Or.inl h))
    · exact Or.inr (Or.inr (Or.inr (by omega)))

theorem inClass_clsLower (c : Nat) : inClass clsLower c = true ↔ isLower c := by
  simp only [inClass, clsLower, isLower, List.any_cons, List.any_nil,
    Bool.or_false, decide_eq_true_eq]

theorem inClass_clsLowerAlnum (c : Nat) :
    inClass clsLowerAlnum c = true ↔ isLower c ∨ isDigit c := by
  simp only [inClass, clsLowerAlnum, isLower, isDigit, List.any_cons, List.any_nil,
    Bool.or_false, Bool.or_eq_true, decide_eq_true_eq]

theorem inClass_clsLowerWord (c : Nat) :
    inClass clsLowerWord c = true ↔ isLower c ∨ isDigit c ∨ isUnderscore c := by
  simp only [inClass, clsLowerWord, isLower, isDigit, isUnderscore, List.any_cons,
    List.any_nil, Bool.or_false, Bool.or_eq_true, decide_eq_true_eq]
  constructor
  · rintro (h | h | h)
    · exact Or.inl h
    · exact Or.inr (Or.inl h)
    · exact Or.inr (Or.inr (by omega))
  · rintro (h | h | h)
    · exact Or.inl h
    · exact Or.inr (Or.inl h)
    · exact Or.inr (Or.inr (by omega))

theorem hasShape_congr {f1 f2 l1 l2 e1 e2 : Nat → Prop} (hf : ∀ c, f1 c ↔ f2 c)
    (hl : ∀ c, l1 c ↔ l2 c) (he : ∀ c, e1 c ↔ e2 c) (t : List Nat) :
    hasShape f1 l1 e1 t ↔ hasShape f2 l2 e2 t := by
  unfold hasShape
  simp only [hf, hl, he]

theorem IsIdentifier_iff_shape (s : List Nat) :
    IsIdentifier s = true ↔
      hasShape isLetter (fun c => isLetter c ∨ isDigit c)
        (fun c => isLetter c ∨ isDigit c ∨ isUnderscore c) (runes s) := by
  unfold IsIdentifier MatchStringAnchored identifierPattern
  rw [Regex.matchRunes_iff, shape_iff]
  · exact hasShape_congr inClass_clsLetter inClass_clsAlnum inClass_clsWord _
  · intro c h; exact (inClass_clsAlnum c).2 (Or.inl ((inClass_clsLetter c).1 h))
  · intro c h
    rcases (inClass_clsAlnum c).1 h with h | h
    · exact (inClass_clsWord c).2 (Or.inl h)
    · exact (inClass_clsWord c).2 (Or.inr (Or.inl h))

theorem IsSnake_iff_shape (s : List Nat) :
    IsSnake s = true ↔
      hasShape isLower (fun c => isLower c ∨ isDigit c)
        (fun c => isLower c ∨ isDigit c ∨ isUnderscore c) (runes s) := by
  unfold IsSnake MatchStringAnchored snakePattern
  rw [Regex.matchRunes_iff, shape_iff]
  · exact hasShape_congr inClass_clsLower inClass_clsLowerAlnum inClass_clsLowerWord _
  · intro c h; exact (inClass_clsLowerAlnum c).2 (Or.inl ((inClass_clsLower c).1 h))
  · intro c h
    rcases (inClass_clsLowerAlnum c).1 h with h | h
    · exact (inClass_clsLowerWord c).2 (Or.inl h)
    · exact (inClass_clsLowerWord c).2 (Or.inr (Or.inl h))

/-! ## New: the first loop -/

theorem randomChar_ok {chars : List Nat} {r : Rand} {c : Nat} {r1 : Rand}
    (h : randomChar chars r = .ok (c, r1)) : c ∈ chars ∧ r1 = r.tail := by
  unfold randomChar at h
  split_ifs at h
  split at h
  · cases h
  · rename_i d hd
    cases h
    exact ⟨List.getElem?_mem hd, rfl⟩

theorem randomChar_of_ne_nil (chars : List Nat) (r : Rand) (h : chars ≠ []) :
    ∃ c, c ∈ chars ∧ randomChar chars r = .ok (c, r.tail) := by
  have hlen : 0 < chars.length := List.length_pos.2 h
  have hlt : r 0 % chars.length < chars.length := Nat.mod_lt _ hlen
  refine ⟨chars[r 0 % chars.length], List.getElem_mem _, ?_⟩
  unfold randomChar
  rw [if_neg (by omega), List.getElem?_eq_getElem hlt]

theorem randomChar_error {chars : List Nat} {r : Rand} {e : Panic}
    (h : randomChar chars r = .error e) : e = .divideByZero ∧ chars = [] := by
  by_cases hc : chars = []
  · subst hc
    simp only [randomChar, List.length_nil, if_true] at h
    cases h
    exact ⟨rfl, rfl⟩
  · obtain ⟨c, _, hok⟩ := randomChar_of_ne_nil chars r hc
    rw [hok] at h
    cases h

theorem appendRandom_ok (chars : List Nat) : ∀ (k : Nat) (pw : List Nat) (r : Rand)
    (pw1 : List Nat) (r1 : Rand), appendRandom chars k pw r = .ok (pw1, r1) →
      ∃ b, pw1 = pw ++ b ∧ b.length = k ∧ ∀ c ∈ b, c ∈ chars := by
  intro k
  induction k with
  | zero =>
    intro pw r pw1 r1 h
    simp only [appendRandom, Except.ok.injEq, Prod.mk.injEq] at h
    exact ⟨[], by simp [h.1], rfl, fun c hc => by cases hc⟩
  | succ k ih =>
    intro pw r pw1 r1 h
    rw [appendRandom] at h
    split at h
    · cases h
    · rename_i c r2 hc
      obtain ⟨b, hb, hlen, hall⟩ := ih _ _ _ _ h
      refine ⟨c :: b, by simp [hb], by simp [hlen], ?_⟩
      intro d hd
      rcases List.mem_cons.1 hd with rfl | hd
      · exact (randomChar_ok hc).1
      · exact hall d hd

theorem appendRandom_total (chars : List Nat) (hc : chars ≠ []) : ∀ (k : Nat) (pw : List Nat)
    (r : Rand), ∃ x, appendRandom chars k pw r = .ok x := by
  intro k
  induction k with
  | zero => intro pw r; exact ⟨_, rfl⟩
  | succ k ih =>
    intro pw r
    obtain ⟨c, _, hok⟩ := randomChar_of_ne_nil chars r hc
    rw [appendRandom, hok]
    exact ih _ _

theorem appendRandom_zero (chars : List Nat) (pw : List Nat) (r : Rand) :
    appendRandom chars 0 pw r = .ok (pw, r) := rfl

theorem appendRandom_error (chars : List Nat) : ∀ (k : Nat) (pw : List Nat) (r : Rand)
    (e : Panic), appendRandom chars k pw r = .error e → e = .divideByZero ∧ chars = [] := by
  intro k
  induction k with
  | zero => intro pw r e h; cases h
  | succ k ih =>
    intro pw r e h
    rw [appendRandom] at h
    split at h
    · rename_i e1 he
      cases h
      exact randomChar_error he
    · exact ih _ _ _ h

theorem minLoop_ok (css : List pwgCharSet) : ∀ (pre mid : List Int) (pw : List Nat) (r : Rand)
    (used1 : List Int) (pw1 : List Nat) (r1 : Rand), mid.length = css.length →
      minLoop css pre.length (pre ++ mid) pw r = .ok (used1, pw1, r1) →
        used1 = pre ++ css.map (fun cs => cs.min) ∧
          ∃ blocks, List.Forall₂ minBlock css blocks ∧ pw1 = pw ++ blocks.flatten := by
  induction css with
  | nil =>
    intro pre mid pw r used1 pw1 r1 hlen h
    simp only [List.length_nil, List.length_eq_zero] at hlen
    subst hlen
    simp only [minLoop, Except.ok.injEq, Prod.mk.injEq] at h
    exact ⟨by simp [h.1], [], List.Forall₂.nil, by simp [h.2.1]⟩
  | cons cs rest ih =>
    intro pre mid pw r used1 pw1 r1 hlen h
    cases mid with
    | nil => simp at hlen
    | cons u mid =>
      simp only [List.length_cons, Nat.add_right_cancel_iff] at hlen
      rw [minLoop] at h
      split at h
      · cases h
      · rename_i pw2 r2 happ
        rw [if_pos (by simp), set_append_cons] at h
        have h2 := ih (pre ++ [cs.min]) mid pw2 r2 used1 pw1 r1 hlen
          (by simpa using h)
        obtain ⟨b, hb, hblen, hball⟩ := appendRandom_ok _ _ _ _ _ _ happ
        obtain ⟨hused, blocks, hblocks, hpw⟩ := h2
        refine ⟨by simp [hused], b :: blocks, List.Forall₂.cons ⟨hblen, hball⟩ hblocks, ?_⟩
        simp [hpw, hb]

theorem minLoop_error (css : List pwgCharSet) : ∀ (pre mid : List Int) (pw : List Nat) (r : Rand)
    (e : Panic), mid.length = css.length →
      minLoop css pre.length (pre ++ mid) pw r = .error e →
        e = .divideByZero ∧ ∃ cs ∈ css, cs.chars = [] := by
  induction css with
  | nil => intro pre mid pw r e _ h; cases h
  | cons cs rest ih =>
    intro pre mid pw r e hlen h
    cases mid with
    | nil => simp at hlen
    | cons u mid =>
      simp only [List.length_cons, Nat.add_right_cancel_iff] at hlen
      rw [minLoop] at h
      split at h
      · rename_i e1 he
        cases h
        obtain ⟨h1, h2⟩ := appendRandom_error _ _ _ _ _ he
        exact ⟨h1, cs, List.mem_cons_self _ _, h2⟩
      · rename_i pw2 r2 happ
        rw [if_pos (by simp), set_append_cons] at h
        obtain ⟨h1, cs1, hmem, h2⟩ := ih (pre ++ [cs.min]) mid pw2 r2 e hlen (by simpa using h)
        exact ⟨h1, cs1, List.mem_cons_of_mem _ hmem, h2⟩

theorem minBlock_join_length {css : List pwgCharSet} {blocks : List (List Nat)}
    (h : List.Forall₂ minBlock css blocks) : blocks.flatten.length = sumMin css := by
  induction h with
  | nil => rfl
  | cons h1 _ ih =>
    simp only [List.flatten_cons, List.length_append, ih, h1.1, sumMin, List.map_cons, List.sum_cons]

/-! ## New: the second loop -/

theorem fillExtra_none (rest : List pwgCharSet) :
    ∃ extras, List.Forall₂ fillExtra rest extras ∧ extras.flatten = [] := by
  induction rest with
  | nil => exact ⟨[], List.Forall₂.nil, rfl⟩
  | cons cs rest ih =>
    obtain ⟨extras, h1, h2⟩ := ih
    exact ⟨[] :: extras, List.Forall₂.cons (Or.inl rfl) h1, by simp [h2]⟩

theorem getElem?_append_length (done rest : List pwgCharSet) (cs : pwgCharSet) :
    (done ++ cs :: rest)[done.length]? = some cs := by
  induction done with
  | nil => simp
  | cons a done ih => simpa using ih

theorem fillLoop_of_le (charSets : List pwgCharSet) (requiredLength : Int) (n usedLen : Nat)
    (usedFrom : List Int) (i lastAddIndex : Nat) (pw : List Nat) (r : Rand)
    (h : requiredLength ≤ (pw.length : Int)) :
    fillLoop charSets requiredLength n usedLen usedFrom i lastAddIndex pw r = .ok (pw, r) := by
  unfold fillLoop
  rw [if_neg (by omega)]

theorem fillLoop_ok (css : List pwgCharSet) (requiredLength : Int) (usedLen : Nat)
    (rest : List pwgCharSet) :
    ∀ (done : List pwgCharSet) (lastAddIndex : Nat) (pw : List Nat) (r : Rand)
      (pw1 : List Nat) (r1 : Rand), css = done ++ rest →
      fillLoop css requiredLength css.length usedLen
        (rest.map (fun cs => cs.min)) done.length lastAddIndex pw r = .ok (pw1, r1) →
      ∃ extras, List.Forall₂ fillExtra rest extras ∧ pw1 = pw ++ extras.flatten := by
  induction rest with
  | nil =>
    intro done lastAddIndex pw r pw1 r1 hcss h
    unfold fillLoop at h
    by_cases hcond : (pw.length : Int) < requiredLength ∧ done.length < lastAddIndex + css.length
    · rw [if_pos hcond] at h
      simp only [List.map_nil] at h
      split_ifs at h
      split at h <;> cases h
    · rw [if_neg hcond] at h
      cases h
      exact ⟨[], List.Forall₂.nil, by simp⟩
  | cons cs rest ih =>
    intro done lastAddIndex pw r pw1 r1 hcss h
    unfold fillLoop at h
    have hlen : css.length = done.length + (rest.length + 1) := by simp [hcss]
    have hmod : done.length % css.length = done.length := Nat.mod_eq_of_lt (by omega)
    have hget : css[done.length]? = some cs := by rw [hcss]; exact getElem?_append_length _ _ _
    have hstep : ∀ (l : Nat) (q : List Nat) (r2 : Rand),
        fillLoop css requiredLength css.length usedLen
          (rest.map (fun cs => cs.min)) (done.length + 1) l q r2 = .ok (pw1, r1) →
        ∃ extras, List.Forall₂ fillExtra rest extras ∧ pw1 = q ++ extras.flatten := by
      intro l q r2 h2
      have := ih (done ++ [cs]) l q r2 pw1 r1 (by simp [hcss])
      simp only [List.length_append, List.length_singleton] at this
      exact this h2
    by_cases hcond : (pw.length : Int) < requiredLength ∧ done.length < lastAddIndex + css.length
    · rw [if_pos hcond, if_neg (by omega), hmod, hget] at h
      simp only [List.map_cons] at h
      by_cases hlt : cs.min < cs.max
      · rw [if_pos hlt] at h
        split at h
        · cases h
        · rename_i c r2 hc
          obtain ⟨extras, h1, h2⟩ := hstep _ _ _ h
          refine ⟨[c] :: extras, List.Forall₂.cons (Or.inr ⟨hlt, c, (randomChar_ok hc).1, rfl⟩) h1, ?_⟩
          simp [h2]
      · rw [if_neg hlt] at h
        obtain ⟨extras, h1, h2⟩ := hstep _ _ _ h
        exact ⟨[] :: extras, List.Forall₂.cons (Or.inl rfl) h1, by simp [h2]⟩
    · rw [if_neg hcond] at h
      cases h
      obtain ⟨extras, h1, h2⟩ := fillExtra_none (cs :: rest)
      exact ⟨extras, h1, by simp [h2]⟩

theorem fillLoop_error (css : List pwgCharSet) (requiredLength : Int) (usedLen : Nat)
    (rest : List pwgCharSet) :
    ∀ (done : List pwgCharSet) (lastAddIndex : Nat) (pw : List Nat) (r : Rand) (e : Panic),
      css = done ++ rest → lastAddIndex ≤ done.length →
      fillLoop css requiredLength css.length usedLen
        (rest.map (fun cs => cs.min)) done.length lastAddIndex pw r = .error e →
      e = .indexOutOfRange css.length usedLen ∨
        (e = .divideByZero ∧ ∃ cs ∈ rest, cs.chars = []) := by
  induction rest with
  | nil =>
    intro done lastAddIndex pw r e hcss hlast h
    unfold fillLoop at h
    have hlen : css.length = done.length := by simp [hcss]
    by_cases hcond : (pw.length : Int) < requiredLength ∧ done.length < lastAddIndex + css.length
    · rw [if_pos hcond, if_neg (by omega)] at h
      simp only [List.map_nil] at h
      split at h
      · rename_i hnone
        exfalso
        rw [← hlen, Nat.mod_self, List.getElem?_eq_none_iff] at hnone
        omega
      · cases h
        left
        rw [hlen]
    · rw [if_neg hcond] at h
      cases h
  | cons cs rest ih =>
    intro done lastAddIndex pw r e hcss hlast h
    unfold fillLoop at h
    have hlen : css.length = done.length + (rest.length + 1) := by simp [hcss]
    have hmod : done.length % css.length = done.length := Nat.mod_eq_of_lt (by omega)
    have hget : css[done.length]? = some cs := by rw [hcss]; exact getElem?_append_length _ _ _
    have hstep : ∀ (l : Nat) (q : List Nat) (r2 : Rand), l ≤ done.length + 1 →
        fillLoop css requiredLength css.length usedLen
          (rest.map (fun cs => cs.min)) (done.length + 1) l q r2 = .error e →
        e = .indexOutOfRange css.length usedLen ∨
          (e = .divideByZero ∧ ∃ cs1 ∈ cs :: rest, cs1.chars = []) := by
      intro l q r2 hl h2
      have := ih (done ++ [cs]) l q r2 e (by simp [hcss])
      simp only [List.length_append, List.length_singleton] at this
      rcases this hl h2 with h3 | ⟨h3, cs1, hmem, h4⟩
      · exact Or.inl h3
      · exact Or.inr ⟨h3, cs1, List.mem_cons_of_mem _ hmem, h4⟩
    by_cases hcond : (pw.length : Int) < requiredLength ∧ done.length < lastAddIndex + css.length
    · rw [if_pos hcond, if_neg (by omega), hmod, hget] at h
      simp only [List.map_cons] at h
      by_cases hlt : cs.min < cs.max
      · rw [if_pos hlt] at h
        split at h
        · rename_i e1 he
          cases h
          obtain ⟨h1, h2⟩ := randomChar_error he
          exact Or.inr ⟨h1, cs, List.mem_cons_self _ _, h2⟩
        · exact hstep _ _ _ (by omega) h
      · rw [if_neg hlt] at h
        exact hstep _ _ _ (by omega) h
    · rw [if_neg hcond] at h
      cases h

/-! ## New: the shuffle -/

theorem set_perm_cons (a : Nat) : ∀ (l : List Nat) (j : Nat), j < l.length →
    (l.getD j 0 :: l.set j a).Perm (a :: l) := by
  intro l
  induction l with
  | nil => intro j hj; simp at hj
  | cons b t ih =>
    intro j hj
    cases j with
    | zero => simpa using List.Perm.swap a b t
    | succ j =>
      have h1 := ih j (by simpa using hj)
      simp only [List.getD_cons_succ, List.set_cons_succ]
      exact ((List.Perm.swap b (t.getD j 0) (t.set j a)).trans (h1.cons b)).trans
        (List.Perm.swap a b t)

theorem swap_perm : ∀ (pw : List Nat) (i j : Nat), i < pw.length → j < pw.length →
    (swap pw i j).Perm pw := by
  intro pw
  induction pw with
  | nil => intro i j hi; simp at hi
  | cons a t ih =>
    intro i j hi hj
    cases i with
    | zero =>
      cases j with
      | zero => simp [swap]
      | succ j =>
        simpa [swap] using set_perm_cons a t j (by simpa using hj)
    | succ i =>
      cases j with
      | zero =>
        simpa [swap] using set_perm_cons a t i (by simpa using hi)
      | succ j =>
        have := ih i j (by simpa using hi) (by simpa using hj)
        simpa [swap] using this

theorem swap_length (pw : List Nat) (i j : Nat) : (swap pw i j).length = pw.length := by
  simp [swap]

theorem shuffleLoop_perm : ∀ (k : Nat) (pw : List Nat) (r : Rand), k < pw.length →
    (shuffleLoop k pw r).1.Perm pw := by
  intro k
  induction k with
  | zero => intro pw r _; exact List.Perm.refl _
  | succ i ih =>
    intro pw r hk
    rw [shuffleLoop]
    have hj : r 0 % (i + 2) < pw.length := by
      have := Nat.mod_lt (r 0) (show 0 < i + 2 by omega)
      omega
    exact (ih _ _ (by rw [swap_length]; omega)).trans (swap_perm pw (i + 1) _ hk hj)

theorem shuffle_perm (pw : List Nat) (r : Rand) : (shuffle pw r).1.Perm pw := by
  unfold shuffle
  cases pw with
  | nil => exact List.Perm.refl _
  | cons a t => exact shuffleLoop_perm _ _ _ (by simp)

/-! ## New: the password it returns -/

theorem rulePiece_merge {css : List pwgCharSet} {blocks : List (List Nat)}
    (hb : List.Forall₂ minBlock css blocks) :
    ∀ {extras : List (List Nat)}, List.Forall₂ fillExtra css extras →
      ∃ pieces, List.Forall₂ rulePiece css pieces ∧
        (blocks.flatten ++ extras.flatten).Perm pieces.flatten := by
  induction hb with
  | nil =>
    intro extras he
    cases he
    exact ⟨[], List.Forall₂.nil, List.Perm.refl _⟩
  | @cons cs b css bs h1 _ ih =>
    intro extras he
    cases he with
    | @cons _ e _ es h2 hes =>
      obtain ⟨pieces, hp, hperm⟩ := ih hes
      refine ⟨(b ++ e) :: pieces, List.Forall₂.cons ⟨?_, ?_⟩ hp, ?_⟩
      · intro c hc
        rcases List.mem_append.1 hc with hc | hc
        · exact h1.2 c hc
        · rcases h2 with rfl | ⟨_, d, hd, rfl⟩
          · cases hc
          · simp only [List.mem_singleton] at hc
            subst hc
            exact hd
      · rcases h2 with rfl | ⟨hlt, d, _, rfl⟩
        · left; simp [h1.1]
        · right; exact ⟨by simp [h1.1], hlt⟩
      · simp only [List.flatten_cons, List.append_assoc]
        refine List.Perm.append_left b ?_
        exact (List.perm_append_comm_assoc bs.flatten e es.flatten).trans
          (List.Perm.append_left e hperm)

/-- What `New` returns: a permutation of one piece for each rule, the piece of a
rule consisting of `min` bytes of its set and possibly one more when
`min < max`. -/
theorem New_ok {g : pwg} {requiredLength : Int} {r : Rand} {pw : List Nat}
    (h : g.New requiredLength r = .ok pw) :
    ∃ pieces, List.Forall₂ rulePiece g.charSets pieces ∧ pw.Perm pieces.flatten := by
  unfold pwg.New at h
  simp only at h
  split at h
  · cases h
  · rename_i used pw0 r1 hmin
    split at h
    · cases h
    · rename_i pw1 r2 hfill
      cases h
      obtain ⟨hused, blocks, hblocks, hpw0⟩ :=
        minLoop_ok g.charSets [] (List.replicate g.charSets.length 0) [] r used pw0 r1
          (by simp) hmin
      simp only [List.nil_append] at hused hpw0
      subst hused
      obtain ⟨extras, hextras, hpw1⟩ :=
        fillLoop_ok g.charSets requiredLength _ g.charSets [] 0 pw0 r1 pw1 r2 rfl
          (by simpa using hfill)
      obtain ⟨pieces, hp, hperm⟩ := rulePiece_merge hblocks hextras
      refine ⟨pieces, hp, (shuffle_perm pw1 r2).trans ?_⟩
      rw [hpw1, hpw0]
      exact hperm

/-- How `New` can fail: with the index panic of the second loop, or with a
division by zero when a rule has an empty set. -/
theorem New_error {g : pwg} {requiredLength : Int} {r : Rand} {e : Panic}
    (h : g.New requiredLength r = .error e) :
    e = .indexOutOfRange g.charSets.length g.charSets.length ∨
      (e = .divideByZero ∧ ∃ cs ∈ g.charSets, cs.chars = []) := by
  unfold pwg.New at h
  simp only at h
  split at h
  · rename_i e1 hmin
    cases h
    exact Or.inr (minLoop_error g.charSets [] (List.replicate g.charSets.length 0) [] r e
      (by simp) hmin)
  · rename_i used pw0 r1 hmin
    split at h
    · rename_i e1 hfill
      cases h
      obtain ⟨hused, -⟩ :=
        minLoop_ok g.charSets [] (List.replicate g.charSets.length 0) [] r used pw0 r1
          (by simp) hmin
      simp only [List.nil_append] at hused
      subst hused
      have := fillLoop_error g.charSets requiredLength
        (List.map (fun cs => cs.min) g.charSets).length g.charSets [] 0 pw0 r1 e rfl
        (Nat.le_refl _) hfill
      simpa using this
    · cases h

/-- When `New` returns at once from the second loop: the first loop has already
appended `requiredLength` bytes or more. -/
theorem New_returns_of_le_sumMin (g : pwg) (requiredLength : Int) (r : Rand)
    (hne : ∀ cs ∈ g.charSets, cs.chars ≠ []) (hreq : requiredLength ≤ (sumMin g.charSets : Int)) :
    ∃ pw, g.New requiredLength r = .ok pw := by
  cases hnew : g.New requiredLength r with
  | ok pw => exact ⟨pw, rfl⟩
  | error e =>
    exfalso
    unfold pwg.New at hnew
    simp only at hnew
    split at hnew
    · rename_i e1 hmin
      obtain ⟨_, cs, hcs, hnil⟩ := minLoop_error g.charSets []
        (List.replicate g.charSets.length 0) [] r e1 (by simp) hmin
      exact hne cs hcs hnil
    · rename_i used pw0 r1 hmin
      obtain ⟨_, blocks, hblocks, hpw0⟩ :=
        minLoop_ok g.charSets [] (List.replicate g.charSets.length 0) [] r used pw0 r1
          (by simp) hmin
      rw [fillLoop_of_le] at hnew
      · cases hnew
      · rw [hpw0]
        simp only [List.nil_append, minBlock_join_length hblocks]
        exact hreq

/-- When `New` returns although `requiredLength` is not reached: no rule other
than the first has `min < max`, so that `lastAddIndex` stays 0. -/
theorem fillLoop_returns_tail (css : List pwgCharSet) (requiredLength : Int) (usedLen : Nat)
    (rest : List pwgCharSet) :
    ∀ (done : List pwgCharSet) (pw : List Nat) (r : Rand), css = done ++ rest →
      (∀ cs ∈ rest, ¬ cs.min < cs.max) →
      ∃ x, fillLoop css requiredLength css.length usedLen
        (rest.map (fun cs => cs.min)) done.length 0 pw r = .ok x := by
  induction rest with
  | nil =>
    intro done pw r hcss _
    have hlen : css.length = done.length := by simp [hcss]
    unfold fillLoop
    rw [if_neg (by omega)]
    exact ⟨_, rfl⟩
  | cons cs rest ih =>
    intro done pw r hcss hall
    have hlen : css.length = done.length + (rest.length + 1) := by simp [hcss]
    have hmod : done.length % css.length = done.length := Nat.mod_eq_of_lt (by omega)
    have hget : css[done.length]? = some cs := by rw [hcss]; exact getElem?_append_length _ _ _
    unfold fillLoop
    by_cases hcond : (pw.length : Int) < requiredLength ∧ done.length < 0 + css.length
    · rw [if_pos hcond, if_neg (by omega), hmod, hget]
      simp only [List.map_cons]
      rw [if_neg (hall cs (List.mem_cons_self _ _))]
      have := ih (done ++ [cs]) pw r (by simp [hcss])
        (fun c hc => hall c (List.mem_cons_of_mem _ hc))
      simpa using this
    · rw [if_neg hcond]
      exact ⟨_, rfl⟩

theorem New_returns_of_tail (g : pwg) (requiredLength : Int) (r : Rand) (cs0 : pwgCharSet)
    (rest : List pwgCharSet) (hg : g.charSets = cs0 :: rest)
    (hne : ∀ cs ∈ g.charSets, cs.chars ≠ []) (htail : ∀ cs ∈ rest, ¬ cs.min < cs.max) :
    ∃ pw, g.New requiredLength r = .ok pw := by
  cases hnew : g.New requiredLength r with
  | ok pw => exact ⟨pw, rfl⟩
  | error e =>
    exfalso
    unfold pwg.New at hnew
    simp only at hnew
    split at hnew
    · rename_i e1 hmin
      obtain ⟨_, cs, hcs, hnil⟩ := minLoop_error g.charSets []
        (List.replicate g.charSets.length 0) [] r e1 (by simp) hmin
      exact hne cs hcs hnil
    · rename_i used pw0 r1 hmin
      obtain ⟨hused, -⟩ :=
        minLoop_ok g.charSets [] (List.replicate g.charSets.length 0) [] r used pw0 r1
          (by simp) hmin
      simp only [List.nil_append] at hused
      subst hused
      split at hnew
      · rename_i e1 hfill
        rw [hg] at hfill
        unfold fillLoop at hfill
        by_cases hcond : (pw0.length : Int) < requiredLength ∧ 0 < 0 + (cs0 :: rest).length
        · rw [if_pos hcond, if_neg (by simp)] at hfill
          simp only [List.length_cons, Nat.zero_mod, List.getElem?_cons_zero, List.map_cons] at hfill
          have hstep : ∀ (q : List Nat) (r2 : Rand),
              ∃ x, fillLoop (cs0 :: rest) requiredLength (rest.length + 1)
                (List.map (fun cs => cs.min) rest).length.succ
                (rest.map (fun cs => cs.min)) (0 + 1) 0 q r2 = .ok x := by
            intro q r2
            have := fillLoop_returns_tail (cs0 :: rest) requiredLength
              (List.map (fun cs => cs.min) rest).length.succ rest [cs0] q r2 rfl htail
            simpa using this
          by_cases hlt : cs0.min < cs0.max
          · rw [if_pos hlt] at hfill
            obtain ⟨c, _, hok⟩ := randomChar_of_ne_nil cs0.chars r1
              (hne cs0 (by rw [hg]; exact List.mem_cons_self _ _))
            rw [hok] at hfill
            simp only at hfill
            obtain ⟨x, hx⟩ := hstep (pw0 ++ [c]) r1.tail
            rw [hx] at hfill
            cases hfill
          · rw [if_neg hlt] at hfill
            obtain ⟨x, hx⟩ := hstep pw0 r1
            rw [hx] at hfill
            cases hfill
        · rw [if_neg hcond] at hfill
          cases hfill
      · cases hnew

theorem New_nil (g : pwg) (requiredLength : Int) (r : Rand) (hg : g.charSets = []) :
    g.New requiredLength r = .ok [] := by
  unfold pwg.New
  rw [hg]
  simp [minLoop, fillLoop, shuffle, shuffleLoop]

/-! ## Counting the characters of a rule -/

theorem ruleCount_singleByte (cs : pwgCharSet) (pw : List Nat) (hcs : ∀ b ∈ cs.chars, b < 128)
    (hpw : ∀ b ∈ pw, b < 128) :
    ruleCount cs pw = pw.countP (fun c => decide (c ∈ cs.chars)) := by
  unfold ruleCount containsRune
  rw [runes_ascii _ hcs, runes_ascii _ hpw]
  congr 1
  funext c
  simp

theorem rulePiece_mem {css : List pwgCharSet} {pieces : List (List Nat)}
    (h : List.Forall₂ rulePiece css pieces) :
    ∀ c ∈ pieces.flatten, ∃ cs ∈ css, c ∈ cs.chars := by
  induction h with
  | nil => intro c hc; simp at hc
  | @cons cs p css ps h1 _ ih =>
    intro c hc
    simp only [List.flatten_cons, List.mem_append] at hc
    rcases hc with hc | hc
    · exact ⟨cs, List.mem_cons_self _ _, h1.1 c hc⟩
    · obtain ⟨cs1, hmem, hin⟩ := ih c hc
      exact ⟨cs1, List.mem_cons_of_mem _ hmem, hin⟩

theorem countP_eq_length_of_all (p : Nat → Bool) (l : List Nat) (h : ∀ c ∈ l, p c = true) :
    l.countP p = l.length := by
  induction l with
  | nil => rfl
  | cons a l ih =>
    rw [List.countP_cons_of_pos _ _ (h a (List.mem_cons_self _ _)),
      ih (fun c hc => h c (List.mem_cons_of_mem _ hc))]
    rfl

theorem countP_eq_zero_of_none (p : Nat → Bool) (l : List Nat) (h : ∀ c ∈ l, p c = false) :
    l.countP p = 0 := by
  induction l with
  | nil => rfl
  | cons a l ih =>
    rw [List.countP_cons_of_neg _ _ (by simp [h a (List.mem_cons_self _ _)]),
      ih (fun c hc => h c (List.mem_cons_of_mem _ hc))]

/-- Every rule finds its piece in the password, whatever the other rules. -/
theorem rulePiece_count_ge {css : List pwgCharSet} {pieces : List (List Nat)}
    (h : List.Forall₂ rulePiece css pieces) :
    ∀ cs ∈ css, cs.min.toNat ≤ pieces.flatten.countP (fun c => decide (c ∈ cs.chars)) := by
  induction h with
  | nil => intro cs hcs; cases hcs
  | @cons cs0 p css ps h1 _ ih =>
    intro cs hcs
    simp only [List.flatten_cons, List.countP_append]
    rcases List.mem_cons.1 hcs with rfl | hcs
    · have := countP_eq_length_of_all (fun c => decide (c ∈ cs.chars)) p
        (fun c hc => by simpa using h1.1 c hc)
      rcases h1.2 with h2 | ⟨h2, _⟩ <;> omega
    · have := ih cs hcs
      omega

/-- With pairwise disjoint sets the count of a rule is the length of its piece:
`min`, or `min + 1` when `min < max`. -/
theorem rulePiece_count_disjoint {css : List pwgCharSet} {pieces : List (List Nat)}
    (h : List.Forall₂ rulePiece css pieces) :
    css.Pairwise (fun a b => ∀ c ∈ a.chars, c ∉ b.chars) →
    ∀ cs ∈ css,
      pieces.flatten.countP (fun c => decide (c ∈ cs.chars)) = cs.min.toNat ∨
        (pieces.flatten.countP (fun c => decide (c ∈ cs.chars)) = cs.min.toNat + 1 ∧
          cs.min < cs.max) ∨ cs.chars = [] := by
  induction h with
  | nil => intro _ cs hcs; cases hcs
  | @cons cs0 p css ps h1 hrest ih =>
    intro hpair cs hcs
    rw [List.pairwise_cons] at hpair
    simp only [List.flatten_cons, List.countP_append]
    by_cases hnil : cs.chars = []
    · exact Or.inr (Or.inr hnil)
    rcases List.mem_cons.1 hcs with rfl | hcs
    · have hp := countP_eq_length_of_all (fun c => decide (c ∈ cs.chars)) p
        (fun c hc => by simpa using h1.1 c hc)
      have hz := countP_eq_zero_of_none (fun c => decide (c ∈ cs.chars)) ps.flatten (by
        intro c hc
        obtain ⟨cs1, hmem, hin⟩ := rulePiece_mem hrest c hc
        simp only [decide_eq_false_iff_not]
        intro hc0
        exact hpair.1 cs1 hmem c hc0 hin)
      rcases h1.2 with h2 | ⟨h2, hlt⟩
      · left; omega
      · right; left; exact ⟨by omega, hlt⟩
    · have hz := countP_eq_zero_of_none (fun c => decide (c ∈ cs.chars)) p (by
        intro c hc
        simp only [decide_eq_false_iff_not]
        exact hpair.1 cs hcs c (h1.1 c hc))
      rcases ih hpair.2 cs hcs with h2 | ⟨h2, hlt⟩ | h2
      · left; omega
      · right; left; exact ⟨by omega, hlt⟩
      · exact absurd h2 hnil

/-- The password that `New` returns consists of single-byte characters when the
sets of the rules do. -/
theorem New_singleByte {g : pwg} {requiredLength : Int} {r : Rand} {pw : List Nat}
    (hsb : singleByte g) (h : g.New requiredLength r = .ok pw) : ∀ b ∈ pw, b < 128 := by
  obtain ⟨pieces, hp, hperm⟩ := New_ok h
  intro b hb
  obtain ⟨cs, hcs, hin⟩ := rulePiece_mem hp b (hperm.mem_iff.1 hb)
  exact hsb cs hcs b hin

/-! ## The shape of identifiers, on bytes -/

theorem hasShape_runes (first last every : Nat → Prop) (hevery : ∀ c, every c → c < 128)
    (s : List Nat) : hasShape first last every (runes s) ↔ hasShape first last every s := by
  constructor
  · intro h
    have hs : runes s = s := runes_ascii s (ascii_of_runes s (fun c hc => hevery c (h.2.2.2 c hc)))
    rw [hs] at h
    exact h
  · intro h
    rw [runes_ascii s (fun c hc => hevery c (h.2.2.2 c hc))]
    exact h

theorem word_lt (c : Nat) (h : isLetter c ∨ isDigit c ∨ isUnderscore c) : c < 128 := by
  unfold isLetter isLower isUpper isDigit isUnderscore at h
  omega

theorem lowerWord_lt (c : Nat) (h : isLower c ∨ isDigit c ∨ isUnderscore c) : c < 128 := by
  unfold isLower isDigit isUnderscore at h
  omega

theorem snakeShape_iff (t : List Nat) :
    hasShape isLower (fun c => isLower c ∨ isDigit c)
        (fun c => isLower c ∨ isDigit c ∨ isUnderscore c) t ↔
      hasShape isLetter (fun c => isLetter c ∨ isDigit c)
        (fun c => isLetter c ∨ isDigit c ∨ isUnderscore c) t ∧ ∀ c ∈ t, ¬ isUpper c := by
  unfold hasShape
  constructor
  · rintro ⟨hne, ⟨a, ha, haL⟩, ⟨b, hb, hbL⟩, hall⟩
    refine ⟨⟨hne, ⟨a, ha, Or.inl haL⟩, ⟨b, hb, ?_⟩, ?_⟩, ?_⟩
    · rcases hbL with h | h
      · exact Or.inl (Or.inl h)
      · exact Or.inr h
    · intro c hc
      rcases hall c hc with h | h | h
      · exact Or.inl (Or.inl h)
      · exact Or.inr (Or.inl h)
      · exact Or.inr (Or.inr h)
    · intro c hc hup
      have := hall c hc
      unfold isLower isDigit isUnderscore at this
      unfold isUpper at hup
      omega
  · rintro ⟨⟨hne, ⟨a, ha, haL⟩, ⟨b, hb, hbL⟩, hall⟩, hup⟩
    have hamem : a ∈ t := List.mem_of_mem_head? ha
    have hbmem : b ∈ t := List.mem_of_getLast?_eq_some hb
    refine ⟨hne, ⟨a, ha, ?_⟩, ⟨b, hb, ?_⟩, ?_⟩
    · rcases haL with h | h
      · exact h
      · exact absurd h (hup a hamem)
    · rcases hbL with (h | h) | h
      · exact Or.inl h
      · exact absurd h (hup b hbmem)
      · exact Or.inr h
    · intro c hc
      rcases hall c hc with (h | h) | h | h
      · exact Or.inl h
      · exact absurd h (hup c hc)
      · exact Or.inr (Or.inl h)
      · exact Or.inr (Or.inr h)

/-! ## The claims -/

/-- C1, as stated, fails: the configuration `CharSet(1, 1, "a"), CharSet(1, 1, "ab")`
is valid and 2 is the sum of its min counts, yet when both draws pick `a`,
`New(2)` returns `"aa"` and `Validate("aa")` fails, "too many" of the first
rule. -/
theorem C1_roundTrip_fails_on_overlapping_sets :
    validConfig overlappingRules ∧ (sumMin overlappingRules.charSets : Int) ≤ 2 ∧
      overlappingRules.New 2 (fun _ => 0) = .ok (bytes "aa") ∧
      overlappingRules.Validate (bytes "aa") = some (.tooMany (bytes "a") 1 2) := by
  refine ⟨?_, by decide, rfl, rfl⟩
  unfold validConfig
  decide

/-- C1, amended: for every valid configuration whose character sets are pairwise
disjoint and consist of single-byte characters, every `requiredLength` and every
outcome of the random draws, every password that `New(requiredLength)` returns
is accepted by `Validate`; and `New` does return one when `requiredLength` is at
most the sum of the min counts or no rule other than the first has
`min < max`. -/
theorem C1_roundTrip_disjoint_sets (g : pwg) (requiredLength : Int) (r : Rand)
    (hvalid : validConfig g) (hdisjoint : pairwiseDisjoint g) (hsingle : singleByte g) :
    (∀ pw, g.New requiredLength r = .ok pw → g.Validate pw = none) ∧
      (requiredLength ≤ (sumMin g.charSets : Int) ∨
          (∀ cs ∈ g.charSets.tail, ¬ cs.min < cs.max) →
        ∃ pw, g.New requiredLength r = .ok pw) := by
  constructor
  · intro pw hnew
    rw [Validate_eq_firstViolation, firstViolation_eq_none]
    intro cs hcs
    obtain ⟨pieces, hp, hperm⟩ := New_ok hnew
    have hcount : ruleCount cs pw = pieces.flatten.countP (fun c => decide (c ∈ cs.chars)) := by
      rw [ruleCount_singleByte cs pw (hsingle cs hcs) (New_singleByte hsingle hnew)]
      exact hperm.countP_eq _
    obtain ⟨hne, _, hmin, hmax⟩ := hvalid cs hcs
    rw [hcount]
    rcases rulePiece_count_disjoint hp hdisjoint cs hcs with h | ⟨h, hlt⟩ | h
    · rw [h]
      refine ⟨Or.inr (by omega), ?_⟩
      by_cases h0 : cs.max = 0
      · exact Or.inl h0
      · exact Or.inr (by have := hmax h0; omega)
    · rw [h]
      exact ⟨Or.inr (by omega), Or.inr (by push_cast; omega)⟩
    · exact absurd h hne
  · intro hret
    have hne : ∀ cs ∈ g.charSets, cs.chars ≠ [] := fun cs hcs => (hvalid cs hcs).1
    rcases hret with hle | htail
    · exact New_returns_of_le_sumMin g requiredLength r hne hle
    · cases hg : g.charSets with
      | nil => exact ⟨[], New_nil g requiredLength r hg⟩
      | cons cs0 rest =>
        rw [hg] at htail
        exact New_returns_of_tail g requiredLength r cs0 rest hg hne htail

/-- C1, amended, at `CharSet(2, 3, "ab"), CharSet(1, 0, "x")`, `New(5)` and the
draws 0, 1, 2, ...: `New` returns `"bbxa"` and `Validate` accepts it. -/
theorem C1_roundTrip_disjoint_sets_witness :
    validConfig disjointRules ∧ pairwiseDisjoint disjointRules ∧ singleByte disjointRules ∧
      disjointRules.New 5 countingRand = .ok (bytes "bbxa") ∧
      disjointRules.Validate (bytes "bbxa") = none :=
  have hvalid : validConfig disjointRules := by unfold validConfig; decide
  have hdisjoint : pairwiseDisjoint disjointRules := by unfold pairwiseDisjoint; decide
  have hsingle : singleByte disjointRules := by unfold singleByte; decide
  ⟨hvalid, hdisjoint, hsingle, rfl,
    (C1_roundTrip_disjoint_sets disjointRules 5 countingRand hvalid hdisjoint hsingle).1
      (bytes "bbxa") rfl⟩

/-- C2 fails on the code: for the default configuration, whose one rule has
`max = 0`, `New(requiredLength)` returns the empty string for every
`requiredLength` and every outcome of the random draws, the second loop taking
`max = 0` for a bound that is already reached. -/
theorem C2_New_default_returns_empty (requiredLength : Int) (r : Rand) :
    defaultGenerator.New requiredLength r = .ok [] := by
  simp [defaultGenerator, NewPasswordGenerator, applyOptions, pwg.New, minLoop, appendRandom,
    fillLoop, shuffle, shuffleLoop]

/-- C3 fails on the code: for the one rule `CharSet(0, 5, "a")`, `New(3)` returns
`"a"`, of length 1 and not `min(3, 5) = 3`, for every outcome of the random
draws: the second loop stops after one pass. -/
theorem C3_New_stops_after_one_pass (r : Rand) : roomyRule.New 3 r = .ok (bytes "a") := by
  simp [roomyRule, pwg.New, minLoop, appendRandom, fillLoop, shuffle, shuffleLoop, randomChar,
    bytes, Nat.mod_one]

/-- C4 fails on the code: for the two rules `CharSet(0, 1, "a"), CharSet(0, 1, "b")`,
`New(3)` panics with the index 2 out of range for the two usage counters, for
every outcome of the random draws. -/
theorem C4_New_panics (r : Rand) : twoRoomyRules.New 3 r = .error (.indexOutOfRange 2 2) := by
  simp [twoRoomyRules, pwg.New, minLoop, appendRandom, fillLoop, shuffle, shuffleLoop,
    randomChar, bytes, Nat.mod_one]

/-- C5: for every rule list and every password, `Validate` returns no error if
and only if every rule is satisfied: with `count` the number of characters of
the password that occur in its set, `min = 0` or `count >= min`, and
`max = 0` or `count <= max`. -/
theorem C5_Validate_iff (g : pwg) (password : List Nat) :
    g.Validate password = none ↔ ∀ cs ∈ g.charSets, ruleSatisfied cs password := by
  rw [Validate_eq_firstViolation, firstViolation_eq_none]
  rfl

/-- C6: for every configuration whose sets consist of single-byte characters,
every `requiredLength` and every outcome of the random draws, a password that
`New(requiredLength)` returns contains, for each rule, at least the min count
of that rule of characters of its set. -/
theorem C6_New_meets_minimums (g : pwg) (requiredLength : Int) (r : Rand) (pw : List Nat)
    (hsingle : singleByte g) (hnew : g.New requiredLength r = .ok pw) :
    ∀ cs ∈ g.charSets, cs.min ≤ (ruleCount cs pw : Int) := by
  intro cs hcs
  obtain ⟨pieces, hp, hperm⟩ := New_ok hnew
  rw [ruleCount_singleByte cs pw (hsingle cs hcs) (New_singleByte hsingle hnew),
    hperm.countP_eq]
  have := rulePiece_count_ge hp cs hcs
  omega

/-- C6 at `CharSet(1, 2, "abc"), CharSet(2, 2, "01")`, `New(4)` and the draws
0, 1, 2, ...: `New` returns `"1a0a"`, with two letters and two digits. -/
theorem C6_New_meets_minimums_witness :
    singleByte lettersAndDigits ∧ lettersAndDigits.New 4 countingRand = .ok (bytes "1a0a") ∧
      ∀ cs ∈ lettersAndDigits.charSets, cs.min ≤ (ruleCount cs (bytes "1a0a") : Int) :=
  have hsingle : singleByte lettersAndDigits := by unfold singleByte; decide
  ⟨hsingle, rfl,
    C6_New_meets_minimums lettersAndDigits 4 countingRand (bytes "1a0a") hsingle rfl⟩

/-- C7: the generator built from no options accepts every password: `Validate`
returns no error for every string, the empty string and strings with
characters outside the default set included. -/
theorem C7_Validate_default (password : List Nat) :
    defaultGenerator.Validate password = none := by
  rw [Validate_eq_firstViolation]
  simp [defaultGenerator, NewPasswordGenerator, applyOptions, firstViolation]

/-- C8: for every string `s`, `IsIdentifier(s)` is true if and only if `s` is
non-empty, its first character is an ASCII letter, its last character is an
ASCII letter or digit, and every character is an ASCII letter, digit or
underscore; the characters being the runes of `s` or, what is the same here,
its bytes.  `"a1_b2"` is accepted, `"1abc"` and `"_abc"` are rejected. -/
theorem C8_IsIdentifier_iff :
    (∀ s : List Nat,
      (IsIdentifier s = true ↔
        hasShape isLetter (fun c => isLetter c ∨ isDigit c)
          (fun c => isLetter c ∨ isDigit c ∨ isUnderscore c) (runes s)) ∧
      (IsIdentifier s = true ↔
        hasShape isLetter (fun c => isLetter c ∨ isDigit c)
          (fun c => isLetter c ∨ isDigit c ∨ isUnderscore c) s)) ∧
    IsIdentifier (bytes "a1_b2") = true ∧ IsIdentifier (bytes "1abc") = false ∧
    IsIdentifier (bytes "_abc") = false := by
  refine ⟨fun s => ⟨IsIdentifier_iff_shape s, ?_⟩, by decide, by decide, by decide⟩
  rw [IsIdentifier_iff_shape]
  exact hasShape_runes _ _ _ word_lt s

/-- C9: for every string `s`, `IsSnake(s)` is true if and only if
`IsIdentifier(s)` is true and `s` contains no uppercase ASCII letter, among its
runes or, what is the same here, among its bytes.  `"foo_bar1"` is accepted and
`"Foo"` is rejected. -/
theorem C9_IsSnake_iff :
    (∀ s : List Nat,
      (IsSnake s = true ↔ IsIdentifier s = true ∧ ∀ c ∈ runes s, ¬ isUpper c) ∧
      (IsSnake s = true ↔ IsIdentifier s = true ∧ ∀ b ∈ s, ¬ isUpper b)) ∧
    IsSnake (bytes "foo_bar1") = true ∧ IsSnake (bytes "Foo") = false := by
  refine ⟨fun s => ⟨?_, ?_⟩, by decide, by decide⟩
  · rw [IsSnake_iff_shape, IsIdentifier_iff_shape]
    exact snakeShape_iff (runes s)
  · rw [IsSnake_iff_shape, hasShape_runes _ _ _ lowerWord_lt, IsIdentifier_iff_shape,
      hasShape_runes _ _ _ word_lt]
    exact snakeShape_iff s

theorem applyOptions_some (options : List pwgoCharSet) : ∀ (g : pwg),
    applyOptions (options.map some) g =
      .ok { charSets := g.charSets ++
        options.map (fun o => { min := o.min, max := o.max, chars := o.chars }) } := by
  induction options with
  | nil => intro g; simp [applyOptions]
  | cons o os ih =>
    intro g
    rw [List.map_cons, applyOptions, ih]
    simp [pwgoCharSet.Apply]

theorem NewPasswordGenerator_default :
    NewPasswordGenerator [] = .ok (defaultGenerator, none) := rfl

/-- C10, as stated, fails: `NewPasswordGenerator(nil)`, the one option being a
nil `PasswordGeneratorOption`, does not return a nil error: it panics at
`option.Apply(&pwg)`; and so it does with a nil option after a `CharSet`. -/
theorem C10_NewPasswordGenerator_panics_on_nil_option :
    NewPasswordGenerator [none] = .error .nilDereference ∧
      NewPasswordGenerator [CharSet 1 2 (bytes "a"), none] = .error .nilDereference :=
  ⟨rfl, rfl⟩

/-- C10, amended: for every list of options none of which is nil,
`NewPasswordGenerator` returns, with a nil error; given the options
`CharSet(m1, M1, c1), ..., CharSet(mk, Mk, ck)` with `k >= 1` the rule list is
`(m1, M1, c1), ..., (mk, Mk, ck)` in that order, and given no options it is the
single rule with min 0, max 0 and the characters
`CharsLower + CharsUpper + CharsDigits + CharsSymbols`. -/
theorem C10_NewPasswordGenerator :
    (∀ options : List pwgoCharSet,
      ∃ g, NewPasswordGenerator (options.map some) = .ok (g, none)) ∧
    (∀ (t : Int × Int × List Nat) (ts : List (Int × Int × List Nat)),
      NewPasswordGenerator ((t :: ts).map (fun t => CharSet t.1 t.2.1 t.2.2)) =
        .ok ({ charSets := (t :: ts).map (fun t => { min := t.1, max := t.2.1, chars := t.2.2 }) },
          none)) ∧
    NewPasswordGenerator [] =
      .ok ({ charSets :=
          [{ min := 0, max := 0,
             chars := CharsLower ++ CharsUpper ++ CharsDigits ++ CharsSymbols }] }, none) := by
  refine ⟨?_, ?_, rfl⟩
  · intro options
    unfold NewPasswordGenerator
    rw [applyOptions_some]
    exact ⟨_, rfl⟩
  · intro t ts
    have h := applyOptions_some
      ((t :: ts).map (fun t => ({ min := t.1, max := t.2.1, chars := t.2.2 } : pwgoCharSet)))
      { charSets := [] }
    simp only [List.map_map, List.nil_append] at h
    have hmap : (t :: ts).map (fun t => CharSet t.1 t.2.1 t.2.2) =
        (t :: ts).map (some ∘ fun t => ({ min := t.1, max := t.2.1, chars := t.2.2 } : pwgoCharSet)) :=
      rfl
    unfold NewPasswordGenerator
    rw [hmap, h]
    simp only [Function.comp_def, List.map_cons, List.length_cons]
    rw [if_neg (by omega)]

/-! ## The hash: writing in pieces -/

theorem getD_drop_take (p : List Nat) (k j : Nat) (h : k + j < 64) :
    ((p.take 64).drop k).getD j 0 = (p.drop k).getD j 0 := by
  simp only [List.getD_eq_getElem?_getD, List.getElem?_drop, List.getElem?_take]
  rw [if_pos h]

theorem beUint32_drop_take (p : List Nat) (k : Nat) (h : k + 3 < 64) :
    beUint32 ((p.take 64).drop k) = beUint32 (p.drop k) := by
  unfold beUint32
  rw [getD_drop_take p k 0 (by omega), getD_drop_take p k 1 (by omega),
    getD_drop_take p k 2 (by omega), getD_drop_take p k 3 (by omega)]

theorem chunkWords_take (p : List Nat) : chunkWords (p.take 64) = chunkWords p := by
  unfold chunkWords
  apply List.map_congr_left
  intro i hi
  rw [List.mem_range] at hi
  exact beUint32_drop_take p (4 * i) (by omega)

theorem blockChunk_take (h : HashWords) (p : List Nat) :
    blockChunk h (p.take 64) = blockChunk h p := by
  unfold blockChunk
  rw [chunkWords_take]

theorem blockLoop_congr : ∀ (k : Nat) (h : HashWords) (p q : List Nat),
    p.take (64 * k) = q.take (64 * k) → blockLoop k h p = blockLoop k h q := by
  intro k
  induction k with
  | zero => intro h p q _; rfl
  | succ k ih =>
    intro h p q hpq
    have h1 : p.take 64 = q.take 64 := by
      have := congrArg (List.take 64) hpq
      simpa [List.take_take] using this
    have h2 : (p.drop 64).take (64 * k) = (q.drop 64).take (64 * k) := by
      have := congrArg (List.drop 64) hpq
      rw [List.drop_take, List.drop_take] at this
      rw [show 64 * (k + 1) - 64 = 64 * k by omega] at this
      exact this
    rw [blockLoop, blockLoop, ← blockChunk_take h p, ← blockChunk_take h q, h1]
    exact ih _ _ _ h2

theorem blockLoop_add : ∀ (a b : Nat) (h : HashWords) (p : List Nat),
    blockLoop (a + b) h p = blockLoop b (blockLoop a h p) (p.drop (64 * a)) := by
  intro a
  induction a with
  | zero => intro b h p; simp [blockLoop]
  | succ a ih =>
    intro b h p
    rw [show a + 1 + b = (a + b) + 1 by omega, blockLoop, ih, blockLoop, List.drop_drop]
    congr 2
    omega

theorem block_take_whole (h : HashWords) (p : List Nat) :
    block h (p.take (p.length - p.length % 64)) = blockLoop (p.length / 64) h p := by
  unfold block
  have hm : p.length - p.length % 64 = 64 * (p.length / 64) := by omega
  rw [hm, List.length_take, Nat.min_eq_left (by omega), Nat.mul_div_cancel_left _ (by omega)]
  exact blockLoop_congr _ _ _ _ (by rw [List.take_take, Nat.min_self])

theorem writeChunks_eq (h : HashWords) (p : List Nat) :
    writeChunks h p = (blockLoop (p.length / 64) h p, p.drop (64 * (p.length / 64))) := by
  unfold writeChunks
  have hm : p.length - p.length % 64 = 64 * (p.length / 64) := by omega
  by_cases hp : p.length ≥ 64
  · rw [if_pos hp, block_take_whole, hm]
  · rw [if_neg hp]
    have : p.length / 64 = 0 := by omega
    rw [this]
    rfl

theorem writeKeep_nil (p : List Nat) : writeKeep [] p = p := by
  unfold writeKeep
  by_cases h0 : p.length > 0
  · rw [if_pos h0]
  · rw [if_neg h0]
    exact (List.length_eq_zero.1 (by omega)).symm

/-- What `Write` does to a digest whose buffer is not full: it consumes the
whole chunks of the buffer followed by `p` and keeps the rest. -/
theorem Write_eq (h : HashWords) (x : List Nat) (len : Nat) (p : List Nat) (hx : x.length < 64) :
    ({ h := h, x := x, len := len } : digest).Write p =
      { h := blockLoop ((x.length + p.length) / 64) h (x ++ p),
        x := (x ++ p).drop (64 * ((x.length + p.length) / 64)),
        len := (len + p.length) % 2 ^ 64 } := by
  unfold digest.Write
  by_cases h0 : x.length > 0
  · by_cases hfull : x.length + p.length ≥ 64
    · -- the buffer fills up and is consumed
      have hn : min (64 - x.length) p.length = 64 - x.length := by omega
      have hx1 : (x ++ p.take (64 - x.length)).length = 64 := by
        rw [List.length_append, List.length_take]; omega
      have htake : (x ++ p).take 64 = x ++ p.take (64 - x.length) := by
        rw [List.take_append_eq_append_take, List.take_of_length_le (by omega)]
      have hdrop : (x ++ p).drop 64 = p.drop (64 - x.length) := by
        rw [List.drop_append_eq_append_drop, List.drop_of_length_le (by omega)]; rfl
      have hlen1 : (p.drop (64 - x.length)).length = x.length + p.length - 64 := by
        rw [List.length_drop]; omega
      have hq : (x.length + p.length) / 64 = 1 + (p.drop (64 - x.length)).length / 64 := by
        rw [hlen1]; omega
      have hb : writeBuffer h x p =
          (blockChunk h (x ++ p), [], p.drop (64 - x.length)) := by
        unfold writeBuffer
        rw [if_pos h0, hn, if_pos hx1, block, hx1]
        simp only [Nat.div_self (show 0 < 64 by omega), blockLoop]
        rw [← blockChunk_take h (x ++ p), htake]
      rw [hb]
      simp only []
      rw [writeChunks_eq, writeKeep_nil, hq, blockLoop_add, Nat.mul_add, ← List.drop_drop]
      simp only [Nat.mul_one, hdrop, blockLoop]
    · -- the buffer takes the whole of `p`
      have hn : min (64 - x.length) p.length = p.length := by omega
      have hq : (x.length + p.length) / 64 = 0 := by omega
      have hx1 : ¬ (x ++ p).length = 64 := by rw [List.length_append]; omega
      have hb : writeBuffer h x p = (h, x ++ p, []) := by
        unfold writeBuffer
        rw [if_pos h0, hn, List.take_length, List.drop_length, if_neg hx1]
      rw [hb]
      simp only []
      rw [writeChunks_eq, hq]
      simp [blockLoop, writeKeep]
  · have hnil : x = [] := List.length_eq_zero.1 (by omega)
    subst hnil
    have hb : writeBuffer h [] p = (h, [], p) := by
      unfold writeBuffer
      rw [if_neg h0]
    rw [hb]
    simp only []
    rw [writeChunks_eq, writeKeep_nil]
    simp

theorem digestOf_buffer (m : List Nat) : (digestOf m).x.length < 64 := by
  unfold digestOf
  simp only [List.length_drop]
  omega

/-- Writing `p` to the digest of the message `m` gives the digest of `m ++ p`. -/
theorem Write_digestOf (m p : List Nat) : (digestOf m).Write p = digestOf (m ++ p) := by
  have hx := digestOf_buffer m
  have hW := Write_eq (digestOf m).h (digestOf m).x (digestOf m).len p hx
  have hxl : (digestOf m).x.length = m.length % 64 := by
    unfold digestOf
    simp only [List.length_drop]
    omega
  rw [hxl] at hW
  have hq : (m.length + p.length) / 64 = m.length / 64 + (m.length % 64 + p.length) / 64 := by
    omega
  have hdrop : (m ++ p).drop (64 * (m.length / 64)) = m.drop (64 * (m.length / 64)) ++ p := by
    rw [List.drop_append_eq_append_drop, show 64 * (m.length / 64) - m.length = 0 by omega]
    rfl
  calc (digestOf m).Write p
      = ({ h := (digestOf m).h, x := (digestOf m).x, len := (digestOf m).len } : digest).Write p := rfl
    _ = _ := hW
    _ = digestOf (m ++ p) := by
      unfold digestOf
      simp only [List.length_append]
      rw [hq, blockLoop_add, Nat.mul_add, ← List.drop_drop, hdrop]
      congr 1
      · congr 1
        exact blockLoop_congr _ _ _ _ (by
          rw [List.take_append_of_le_length (by omega)])
      · omega

theorem foldl_Write (values : List (List Nat)) : ∀ (m : List Nat),
    values.foldl (fun hash s => hash.Write s) (digestOf m) = digestOf (m ++ values.flatten) := by
  induction values with
  | nil => intro m; simp
  | cons v vs ih =>
    intro m
    rw [List.foldl_cons, Write_digestOf, ih]
    simp

theorem sha1New_eq : sha1New = digestOf [] := by decide

/-! ## New: the exact course of the second loop -/

theorem roomy_cons (cs : pwgCharSet) (rest : List pwgCharSet) :
    roomy (cs :: rest) = (if cs.min < cs.max then 1 else 0) + roomy rest := by
  unfold roomy
  rw [List.countP_cons]
  by_cases h : cs.min < cs.max
  · simp [h]; omega
  · simp [h]

/-- The second loop reaches `requiredLength` when enough rules with `min < max`
are left. -/
theorem fillLoop_reaches (css : List pwgCharSet) (requiredLength : Int) (usedLen : Nat)
    (rest : List pwgCharSet) :
    ∀ (done : List pwgCharSet) (lastAddIndex : Nat) (pw : List Nat) (r : Rand),
      css = done ++ rest → (∀ cs ∈ rest, cs.chars ≠ []) →
      requiredLength ≤ (pw.length : Int) + (roomy rest : Int) →
      ∃ pw1 r1, fillLoop css requiredLength css.length usedLen
          (rest.map (fun cs => cs.min)) done.length lastAddIndex pw r = .ok (pw1, r1) ∧
        (pw1.length : Int) = max (pw.length : Int) requiredLength := by
  induction rest with
  | nil =>
    intro done lastAddIndex pw r _ _ hreq
    simp only [roomy, List.countP_nil, Nat.cast_zero, add_zero] at hreq
    exact ⟨pw, r, fillLoop_of_le _ _ _ _ _ _ _ _ _ hreq, by omega⟩
  | cons cs rest ih =>
    intro done lastAddIndex pw r hcss hne hreq
    by_cases hle : requiredLength ≤ (pw.length : Int)
    · exact ⟨pw, r, fillLoop_of_le _ _ _ _ _ _ _ _ _ hle, by omega⟩
    have hlen : css.length = done.length + (rest.length + 1) := by simp [hcss]
    have hmod : done.length % css.length = done.length := Nat.mod_eq_of_lt (by omega)
    have hget : css[done.length]? = some cs := by rw [hcss]; exact getElem?_append_length _ _ _
    have hstep : ∀ (l : Nat) (q : List Nat) (r2 : Rand),
        requiredLength ≤ (q.length : Int) + (roomy rest : Int) →
        (q.length : Int) ≤ requiredLength →
        ∃ pw1 r1, fillLoop css requiredLength css.length usedLen
          (rest.map (fun cs => cs.min)) (done.length + 1) l q r2 = .ok (pw1, r1) ∧
        (pw1.length : Int) = max (pw.length : Int) requiredLength := by
      intro l q r2 hq hpq
      have := ih (done ++ [cs]) l q r2 (by simp [hcss])
        (fun c hc => hne c (List.mem_cons_of_mem _ hc)) hq
      simp only [List.length_append, List.length_singleton] at this
      obtain ⟨pw1, r1, h1, h2⟩ := this
      exact ⟨pw1, r1, h1, by omega⟩
    rw [roomy_cons] at hreq
    unfold fillLoop
    rw [if_pos ⟨by omega, by omega⟩, if_neg (by omega), hmod, hget]
    simp only [List.map_cons]
    by_cases hlt : cs.min < cs.max
    · rw [if_pos hlt]
      rw [if_pos hlt] at hreq
      obtain ⟨c, _, hok⟩ := randomChar_of_ne_nil cs.chars r (hne cs (List.mem_cons_self _ _))
      rw [hok]
      simp only
      exact hstep _ _ _ (by simp only [List.length_append, List.length_singleton]; push_cast at hreq ⊢; omega)
        (by simp only [List.length_append, List.length_singleton]; push_cast; omega)
    · rw [if_neg hlt]
      rw [if_neg hlt] at hreq
      exact hstep _ _ _ (by push_cast at hreq ⊢; omega) (by omega)

/-- The second loop runs into `charsetNrUsed[n]` when it cannot reach
`requiredLength` and the last add was, or will be, at an index `>= 1`. -/
theorem fillLoop_panics (css : List pwgCharSet) (requiredLength : Int) (usedLen : Nat)
    (rest : List pwgCharSet) :
    ∀ (done : List pwgCharSet) (lastAddIndex : Nat) (pw : List Nat) (r : Rand),
      css = done ++ rest → 1 ≤ done.length → (∀ cs ∈ rest, cs.chars ≠ []) →
      (pw.length : Int) + (roomy rest : Int) < requiredLength →
      (1 ≤ lastAddIndex ∨ ∃ cs ∈ rest, cs.min < cs.max) →
      fillLoop css requiredLength css.length usedLen
          (rest.map (fun cs => cs.min)) done.length lastAddIndex pw r =
        .error (.indexOutOfRange css.length usedLen) := by
  induction rest with
  | nil =>
    intro done lastAddIndex pw r hcss hdone _ hreq hlast
    have hlen : css.length = done.length := by simp [hcss]
    have hl : 1 ≤ lastAddIndex := by
      rcases hlast with h | ⟨cs, hcs, _⟩
      · exact h
      · cases hcs
    simp only [roomy, List.countP_nil, Nat.cast_zero, add_zero] at hreq
    unfold fillLoop
    rw [if_pos ⟨hreq, by omega⟩, if_neg (by omega), ← hlen, Nat.mod_self]
    simp only [List.map_nil]
    split
    · rename_i hnone
      rw [List.getElem?_eq_none_iff] at hnone
      omega
    · rfl
  | cons cs rest ih =>
    intro done lastAddIndex pw r hcss hdone hne hreq hlast
    have hlen : css.length = done.length + (rest.length + 1) := by simp [hcss]
    have hmod : done.length % css.length = done.length := Nat.mod_eq_of_lt (by omega)
    have hget : css[done.length]? = some cs := by rw [hcss]; exact getElem?_append_length _ _ _
    have hstep : ∀ (l : Nat) (q : List Nat) (r2 : Rand),
        (q.length : Int) + (roomy rest : Int) < requiredLength →
        (1 ≤ l ∨ ∃ cs ∈ rest, cs.min < cs.max) →
        fillLoop css requiredLength css.length usedLen
          (rest.map (fun cs => cs.min)) (done.length + 1) l q r2 =
        .error (.indexOutOfRange css.length usedLen) := by
      intro l q r2 hq hl
      have := ih (done ++ [cs]) l q r2 (by simp [hcss]) (by simp)
        (fun c hc => hne c (List.mem_cons_of_mem _ hc)) hq hl
      simp only [List.length_append, List.length_singleton] at this
      exact this
    rw [roomy_cons] at hreq
    unfold fillLoop
    rw [if_pos ⟨by omega, by omega⟩, if_neg (by omega), hmod, hget]
    simp only [List.map_cons]
    by_cases hlt : cs.min < cs.max
    · rw [if_pos hlt]
      rw [if_pos hlt] at hreq
      obtain ⟨c, _, hok⟩ := randomChar_of_ne_nil cs.chars r (hne cs (List.mem_cons_self _ _))
      rw [hok]
      simp only
      exact hstep _ _ _ (by simp only [List.length_append, List.length_singleton]; push_cast at hreq ⊢; omega)
        (Or.inl hdone)
    · rw [if_neg hlt]
      rw [if_neg hlt] at hreq
      refine hstep _ _ _ (by push_cast at hreq ⊢; omega) ?_
      rcases hlast with h | ⟨c, hc, hclt⟩
      · exact Or.inl h
      · rcases List.mem_cons.1 hc with rfl | hc
        · exact absurd hclt hlt
        · exact Or.inr ⟨c, hc, hclt⟩

/-- The second loop adds nothing and returns when no rule that is left has
`min < max` and nothing was added after index 0. -/
theorem fillLoop_idle (css : List pwgCharSet) (requiredLength : Int) (usedLen : Nat)
    (rest : List pwgCharSet) :
    ∀ (done : List pwgCharSet) (pw : List Nat) (r : Rand), css = done ++ rest →
      (∀ cs ∈ rest, ¬ cs.min < cs.max) →
      fillLoop css requiredLength css.length usedLen
        (rest.map (fun cs => cs.min)) done.length 0 pw r = .ok (pw, r) := by
  induction rest with
  | nil =>
    intro done pw r hcss _
    have hlen : css.length = done.length := by simp [hcss]
    unfold fillLoop
    rw [if_neg (by omega)]
  | cons cs rest ih =>
    intro done pw r hcss hall
    have hlen : css.length = done.length + (rest.length + 1) := by simp [hcss]
    have hmod : done.length % css.length = done.length := Nat.mod_eq_of_lt (by omega)
    have hget : css[done.length]? = some cs := by rw [hcss]; exact getElem?_append_length _ _ _
    unfold fillLoop
    by_cases hcond : (pw.length : Int) < requiredLength ∧ done.length < 0 + css.length
    · rw [if_pos hcond, if_neg (by omega), hmod, hget]
      simp only [List.map_cons]
      rw [if_neg (hall cs (List.mem_cons_self _ _))]
      have := ih (done ++ [cs]) pw r (by simp [hcss])
        (fun c hc => hall c (List.mem_cons_of_mem _ hc))
      simpa using this
    · rw [if_neg hcond]

theorem roomy_eq_zero (rest : List pwgCharSet) (h : ∀ cs ∈ rest, ¬ cs.min < cs.max) :
    roomy rest = 0 := by
  unfold roomy
  rw [List.countP_eq_zero]
  intro cs hcs
  simpa using h cs hcs

/-- From the start, the second loop panics when it cannot reach `requiredLength`
and a rule other than the first has `min < max`. -/
theorem fillLoop_start_panics (requiredLength : Int) (usedLen : Nat) (cs0 : pwgCharSet)
    (rest : List pwgCharSet) (pw : List Nat) (r : Rand)
    (hne : ∀ cs ∈ cs0 :: rest, cs.chars ≠ [])
    (hreq : (pw.length : Int) + (roomy (cs0 :: rest) : Int) < requiredLength)
    (htail : ∃ cs ∈ rest, cs.min < cs.max) :
    fillLoop (cs0 :: rest) requiredLength (cs0 :: rest).length usedLen
        ((cs0 :: rest).map (fun cs => cs.min)) 0 0 pw r =
      .error (.indexOutOfRange (cs0 :: rest).length usedLen) := by
  have hstep : ∀ (q : List Nat) (r2 : Rand),
      (q.length : Int) + (roomy rest : Int) < requiredLength →
      fillLoop (cs0 :: rest) requiredLength (cs0 :: rest).length usedLen
          (rest.map (fun cs => cs.min)) (0 + 1) 0 q r2 =
        .error (.indexOutOfRange (cs0 :: rest).length usedLen) := by
    intro q r2 hq
    exact fillLoop_panics (cs0 :: rest) requiredLength usedLen rest [cs0] 0 q r2 rfl
      (by simp) (fun c hc => hne c (List.mem_cons_of_mem _ hc)) hq (Or.inr htail)
  rw [roomy_cons] at hreq
  unfold fillLoop
  rw [if_pos ⟨by omega, by simp⟩, if_neg (by simp)]
  simp only [List.length_cons, Nat.zero_mod, List.getElem?_cons_zero, List.map_cons]
  by_cases hlt : cs0.min < cs0.max
  · rw [if_pos hlt]
    rw [if_pos hlt] at hreq
    obtain ⟨c, _, hok⟩ := randomChar_of_ne_nil cs0.chars r (hne cs0 (List.mem_cons_self _ _))
    rw [hok]
    simp only
    exact hstep _ _ (by simp only [List.length_append, List.length_singleton]; push_cast at hreq ⊢; omega)
  · rw [if_neg hlt]
    rw [if_neg hlt] at hreq
    exact hstep _ _ (by push_cast at hreq ⊢; omega)

/-- From the start, the second loop returns short of `requiredLength` when no
rule other than the first has `min < max`. -/
theorem fillLoop_start_idle (requiredLength : Int) (usedLen : Nat) (cs0 : pwgCharSet)
    (rest : List pwgCharSet) (pw : List Nat) (r : Rand)
    (hne : ∀ cs ∈ cs0 :: rest, cs.chars ≠ [])
    (hreq : (pw.length : Int) + (roomy (cs0 :: rest) : Int) < requiredLength)
    (htail : ∀ cs ∈ rest, ¬ cs.min < cs.max) :
    ∃ pw1 r1, fillLoop (cs0 :: rest) requiredLength (cs0 :: rest).length usedLen
        ((cs0 :: rest).map (fun cs => cs.min)) 0 0 pw r = .ok (pw1, r1) ∧
      pw1.length = pw.length + roomy (cs0 :: rest) := by
  have hstep : ∀ (q : List Nat) (r2 : Rand),
      fillLoop (cs0 :: rest) requiredLength (cs0 :: rest).length usedLen
          (rest.map (fun cs => cs.min)) (0 + 1) 0 q r2 = .ok (q, r2) := by
    intro q r2
    exact fillLoop_idle (cs0 :: rest) requiredLength usedLen rest [cs0] q r2 rfl htail
  rw [roomy_cons, roomy_eq_zero rest htail] at hreq ⊢
  unfold fillLoop
  rw [if_pos ⟨by omega, by simp⟩, if_neg (by simp)]
  simp only [List.length_cons, Nat.zero_mod, List.getElem?_cons_zero, List.map_cons]
  by_cases hlt : cs0.min < cs0.max
  · rw [if_pos hlt, if_pos hlt]
    obtain ⟨c, _, hok⟩ := randomChar_of_ne_nil cs0.chars r (hne cs0 (List.mem_cons_self _ _))
    rw [hok]
    simp only
    exact ⟨_, _, hstep _ _, by simp⟩
  · rw [if_neg hlt, if_neg hlt]
    exact ⟨_, _, hstep _ _, by simp⟩

theorem minLoop_total (css : List pwgCharSet) (r : Rand) (hne : ∀ cs ∈ css, cs.chars ≠ []) :
    ∃ pw0 r1, minLoop css 0 (List.replicate css.length 0) [] r =
        .ok (css.map (fun cs => cs.min), pw0, r1) ∧ pw0.length = sumMin css := by
  cases hmin : minLoop css 0 (List.replicate css.length 0) [] r with
  | error e =>
    obtain ⟨_, cs, hcs, hnil⟩ := minLoop_error css [] (List.replicate css.length 0) [] r e
      (by simp) hmin
    exact absurd hnil (hne cs hcs)
  | ok x =>
    obtain ⟨used, pw0, r1⟩ := x
    obtain ⟨hused, blocks, hblocks, hpw0⟩ :=
      minLoop_ok css [] (List.replicate css.length 0) [] r used pw0 r1 (by simp) hmin
    simp only [List.nil_append] at hused hpw0
    subst hused
    exact ⟨pw0, r1, rfl, by rw [hpw0, minBlock_join_length hblocks]⟩

theorem shuffle_length (pw : List Nat) (r : Rand) : (shuffle pw r).1.length = pw.length :=
  (shuffle_perm pw r).length_eq

/-- The three courses of `New` for a configuration with non-empty sets, `S`
being the number of bytes of the first loop and `k` the number of rules with
`min < max`: it reaches `requiredLength`; or it cannot and panics, a rule other
than the first having `min < max`; or it cannot and returns `S + k` bytes. -/
theorem New_course (g : pwg) (requiredLength : Int) (r : Rand)
    (hne : ∀ cs ∈ g.charSets, cs.chars ≠ []) :
    (requiredLength ≤ (sumMin g.charSets : Int) + (roomy g.charSets : Int) ∧
      ∃ pw, g.New requiredLength r = .ok pw ∧
        (pw.length : Int) = max (sumMin g.charSets : Int) requiredLength) ∨
    ((sumMin g.charSets : Int) + (roomy g.charSets : Int) < requiredLength ∧
      (∃ cs ∈ g.charSets.tail, cs.min < cs.max) ∧
      g.New requiredLength r = .error (.indexOutOfRange g.charSets.length g.charSets.length)) ∨
    ((sumMin g.charSets : Int) + (roomy g.charSets : Int) < requiredLength ∧
      (¬ ∃ cs ∈ g.charSets.tail, cs.min < cs.max) ∧
      ∃ pw, g.New requiredLength r = .ok pw ∧
        pw.length = sumMin g.charSets + roomy g.charSets) := by
  obtain ⟨pw0, r1, hmin, hlen0⟩ := minLoop_total g.charSets r hne
  have hlenmap : (List.map (fun cs => cs.min) g.charSets).length = g.charSets.length := by simp
  by_cases hreq : requiredLength ≤ (sumMin g.charSets : Int) + (roomy g.charSets : Int)
  · left
    refine ⟨hreq, ?_⟩
    obtain ⟨pw1, r2, hfill, hlen1⟩ := fillLoop_reaches g.charSets requiredLength
      g.charSets.length g.charSets [] 0 pw0 r1 rfl hne (by rw [hlen0]; exact hreq)
    refine ⟨(shuffle pw1 r2).1, ?_, by rw [shuffle_length, hlen1, hlen0]⟩
    unfold pwg.New
    simp only [hmin, hlenmap]
    rw [List.length_nil] at hfill
    rw [hfill]
  · right
    have hlt : (sumMin g.charSets : Int) + (roomy g.charSets : Int) < requiredLength := by omega
    cases hg : g.charSets with
    | nil =>
      right
      rw [hg] at hlt
      refine ⟨hlt, by simp, [], New_nil g requiredLength r hg, by simp [sumMin, roomy]⟩
    | cons cs0 rest =>
      rw [hg] at hne hmin hlen0 hlt hlenmap
      by_cases htail : ∃ cs ∈ rest, cs.min < cs.max
      · left
        refine ⟨hlt, by simpa using htail, ?_⟩
        have hfill := fillLoop_start_panics requiredLength (cs0 :: rest).length cs0 rest pw0 r1
          hne (by rw [hlen0]; exact hlt) htail
        unfold pwg.New
        simp only [hg, hmin, hlenmap]
        rw [hfill]
      · right
        refine ⟨hlt, by simpa using htail, ?_⟩
        obtain ⟨pw1, r2, hfill, hlen1⟩ := fillLoop_start_idle requiredLength
          (cs0 :: rest).length cs0 rest pw0 r1 hne (by rw [hlen0]; exact hlt)
          (fun cs hcs hc => htail ⟨cs, hcs, hc⟩)
        refine ⟨(shuffle pw1 r2).1, ?_, by rw [shuffle_length, hlen1, hlen0]⟩
        unfold pwg.New
        simp only [hg, hmin, hlenmap]
        rw [hfill]

theorem sumMinInt_eq (css : List pwgCharSet) (hmin : ∀ cs ∈ css, 0 ≤ cs.min) :
    sumMinInt css = (sumMin css : Int) := by
  induction css with
  | nil => rfl
  | cons cs rest ih =>
    have h0 := hmin cs (List.mem_cons_self _ _)
    have := ih (fun c hc => hmin c (List.mem_cons_of_mem _ hc))
    simp only [sumMinInt, sumMin, List.map_cons, List.sum_cons, Nat.cast_add] at this ⊢
    rw [this, Int.toNat_of_nonneg h0]

/-! ## The hash: the digest and its rendering -/

theorem PasswordHash_eq (pkg : Package) (values : List (List Nat)) :
    pkg.PasswordHash values = sprintfX (digestOf values.flatten).Sum := by
  unfold Package.PasswordHash
  have := foldl_Write values []
  rw [← sha1New_eq] at this
  simp only [List.nil_append] at this
  simp only [this]

theorem Sum_digestOf (m : List Nat) : (digestOf m).Sum = sha1Standard m := by
  unfold digest.Sum
  rw [Write_digestOf]
  rfl

theorem sha1Sum_eq (m : List Nat) : sha1Sum m = sha1Standard m := by
  unfold sha1Sum
  rw [sha1New_eq, Write_digestOf, List.nil_append, Sum_digestOf]

theorem padlen_length (len : Nat) :
    (padlen len).length = (if len % 64 < 56 then 56 - len % 64 else 64 + 56 - len % 64) + 8 := by
  unfold padlen bePutUint64
  simp only [List.length_append, List.length_cons, List.length_replicate, List.length_map,
    List.length_range]
  split_ifs <;> omega

/-- The padded message is a whole number of chunks: after the padding is written
the buffer is empty, as `checkSum` expects. -/
theorem Sum_buffer_empty (m : List Nat) :
    ((digestOf m).Write (padlen (digestOf m).len)).x = [] := by
  rw [Write_digestOf]
  unfold digestOf
  simp only
  apply List.drop_of_length_le
  rw [List.length_append, padlen_length]
  split_ifs <;> omega

theorem bePutUint32_length (v : Nat) : (bePutUint32 v).length = 4 := rfl

theorem bePutUint32_lt (v : Nat) : ∀ b ∈ bePutUint32 v, b < 256 := by
  intro b hb
  simp only [bePutUint32, List.mem_cons, List.mem_singleton, List.not_mem_nil, or_false] at hb
  rcases hb with rfl | rfl | rfl | rfl <;> exact Nat.mod_lt _ (by omega)

theorem sha1Standard_length (m : List Nat) : (sha1Standard m).length = 20 := by
  simp [sha1Standard, bePutUint32_length]

theorem sprintfX_length (p : List Nat) : (sprintfX p).length = 2 * p.length := by
  unfold sprintfX
  induction p with
  | nil => rfl
  | cons a p ih =>
    simp only [List.flatMap_cons, List.length_append, List.length_cons, List.length_nil, ih]
    omega

theorem hexDigit_isUpperHex (n : Nat) (h : n < 16) : isUpperHex (hexDigit n) := by
  unfold isUpperHex hexDigit
  split_ifs <;> omega

theorem sprintfX_isUpperHex (p : List Nat) : ∀ c ∈ sprintfX p, isUpperHex c := by
  intro c hc
  unfold sprintfX at hc
  rw [List.mem_flatMap] at hc
  obtain ⟨b, _, hb⟩ := hc
  simp only [List.mem_cons, List.mem_singleton, List.not_mem_nil, or_false] at hb
  rcases hb with rfl | rfl
  · exact hexDigit_isUpperHex _ (Nat.mod_lt _ (by omega))
  · exact hexDigit_isUpperHex _ (Nat.mod_lt _ (by omega))

set_option maxRecDepth 1000000 in
theorem PasswordHash_test (pkg : Package) :
    pkg.PasswordHash [bytes "test"] = bytes "A94A8FE5CCB19BA61C4C0873D391E987982FBBD3" := by
  show (Package.mk []).PasswordHash [bytes "test"] = _
  decide

/-! ## Validate: the error it returns -/

theorem firstViolation_some (count : pwgCharSet → Int) (css : List pwgCharSet)
    (e : ValidateError) (h : firstViolation count css = some e) :
    ∃ pre cs post, css = pre ++ cs :: post ∧
      (∀ c ∈ pre, (c.min = 0 ∨ count c ≥ c.min) ∧ (c.max = 0 ∨ count c ≤ c.max)) ∧
      ((cs.min ≠ 0 ∧ count cs < cs.min ∧ e = .tooFew cs.chars cs.min (count cs)) ∨
        (¬ (cs.min ≠ 0 ∧ count cs < cs.min) ∧ cs.max ≠ 0 ∧ count cs > cs.max ∧
          e = .tooMany cs.chars cs.max (count cs))) := by
  induction css with
  | nil => cases h
  | cons cs rest ih =>
    rw [firstViolation] at h
    by_cases h1 : cs.min ≠ 0 ∧ count cs < cs.min
    · rw [if_pos h1] at h
      cases h
      exact ⟨[], cs, rest, rfl, fun c hc => (by cases hc), Or.inl ⟨h1.1, h1.2, rfl⟩⟩
    · rw [if_neg h1] at h
      by_cases h2 : cs.max ≠ 0 ∧ count cs > cs.max
      · rw [if_pos h2] at h
        cases h
        exact ⟨[], cs, rest, rfl, fun c hc => (by cases hc), Or.inr ⟨h1, h2.1, h2.2, rfl⟩⟩
      · rw [if_neg h2] at h
        obtain ⟨pre, c1, post, hcss, hpre, herr⟩ := ih h
        refine ⟨cs :: pre, c1, post, by rw [hcss]; rfl, ?_, herr⟩
        intro c hc
        rcases List.mem_cons.1 hc with rfl | hc
        · have hsat := (firstViolation_eq_none count [c]).1 (by
            rw [firstViolation, if_neg h1, if_neg h2]; rfl)
          exact hsat c (List.mem_singleton_self c)
        · exact hpre c hc

theorem firstViolation_congr (count1 count2 : pwgCharSet → Int) (css : List pwgCharSet)
    (h : ∀ cs ∈ css, count1 cs = count2 cs) :
    firstViolation count1 css = firstViolation count2 css := by
  induction css with
  | nil => rfl
  | cons cs rest ih =>
    rw [firstViolation, firstViolation, h cs (List.mem_cons_self _ _),
      ih (fun c hc => h c (List.mem_cons_of_mem _ hc))]

/-! ## New and Validate together -/

/-- With pairwise disjoint sets of single-byte characters, `min >= 0` and
`max = 0` or `min <= max`, what `New` returns is accepted by `Validate`. -/
theorem Validate_New_disjoint {g : pwg} {requiredLength : Int} {r : Rand} {pw : List Nat}
    (hne : ∀ cs ∈ g.charSets, cs.chars ≠ []) (hsingle : singleByte g)
    (hdisjoint : pairwiseDisjoint g)
    (hbounds : ∀ cs ∈ g.charSets, 0 ≤ cs.min ∧ (cs.max = 0 ∨ cs.min ≤ cs.max))
    (hnew : g.New requiredLength r = .ok pw) : g.Validate pw = none := by
  rw [Validate_eq_firstViolation, firstViolation_eq_none]
  intro cs hcs
  obtain ⟨pieces, hp, hperm⟩ := New_ok hnew
  have hcount : ruleCount cs pw = pieces.flatten.countP (fun c => decide (c ∈ cs.chars)) := by
    rw [ruleCount_singleByte cs pw (hsingle cs hcs) (New_singleByte hsingle hnew)]
    exact hperm.countP_eq _
  obtain ⟨hmin, hmax⟩ := hbounds cs hcs
  rw [hcount]
  rcases rulePiece_count_disjoint hp hdisjoint cs hcs with h | ⟨h, hlt⟩ | h
  · rw [h]
    refine ⟨Or.inr (by omega), ?_⟩
    rcases hmax with h0 | h0
    · exact Or.inl h0
    · exact Or.inr (by omega)
  · rw [h]
    exact ⟨Or.inr (by omega), Or.inr (by push_cast; omega)⟩
  · exact absurd h (hne cs hcs)

/-! ## The claims on the hash, on the errors and on the exact course of New -/

/-- C11: `PasswordHash` depends only on the concatenation of its arguments: for
every list of strings, `PasswordHash(v1, ..., vk)` is `PasswordHash` of the one
string `v1 ++ ... ++ vk`, and it is the uppercase hexadecimal rendering of the
SHA-1 digest of the concatenated bytes, the digest that `sha1.Sum` computes in
one call and that the standard defines; so `PasswordHash("a", "b")` is
`PasswordHash("ab")`. -/
theorem C11_PasswordHash_concatenation (pkg : Package) (values : List (List Nat)) :
    pkg.PasswordHash values = pkg.PasswordHash [values.flatten] ∧
      pkg.PasswordHash values = sprintfX (sha1Sum values.flatten) ∧
      pkg.PasswordHash values = sprintfX (sha1Standard values.flatten) ∧
      pkg.PasswordHash [bytes "a", bytes "b"] = pkg.PasswordHash [bytes "ab"] := by
  refine ⟨?_, ?_, ?_, ?_⟩
  · rw [PasswordHash_eq, PasswordHash_eq]
    simp
  · rw [PasswordHash_eq, Sum_digestOf, sha1Sum_eq]
  · rw [PasswordHash_eq, Sum_digestOf]
  · rw [PasswordHash_eq, PasswordHash_eq]
    rfl

/-- C12: for every list of argument strings, the empty list included,
`PasswordHash` returns a string of exactly 40 characters, each of them one of
`0`..`9` or `A`..`F`; for the argument `"test"` it is
`A94A8FE5CCB19BA61C4C0873D391E987982FBBD3`. -/
theorem C12_PasswordHash_forty_hex (pkg : Package) (values : List (List Nat)) :
    (pkg.PasswordHash values).length = 40 ∧
      (∀ c ∈ pkg.PasswordHash values, isUpperHex c) ∧
      pkg.PasswordHash [bytes "test"] = bytes "A94A8FE5CCB19BA61C4C0873D391E987982FBBD3" := by
  refine ⟨?_, ?_, PasswordHash_test pkg⟩
  · rw [PasswordHash_eq, Sum_digestOf, sprintfX_length, sha1Standard_length]
  · rw [PasswordHash_eq]
    exact sprintfX_isUpperHex _

/-- C13: `PasswordHash` does not depend on the salt: whatever the values of the
package variables, and so whatever the two settings of `PASSWORD_SALT` that
`init` read, it returns the same string for the same values. -/
theorem C13_PasswordHash_salt_independent (values : List (List Nat)) :
    (∀ pkg1 pkg2 : Package, pkg1.PasswordHash values = pkg2.PasswordHash values) ∧
      ∀ envSalt1 envSalt2 : List Nat,
        (init envSalt1).PasswordHash values = (init envSalt2).PasswordHash values :=
  ⟨fun _ _ => rfl, fun _ _ => rfl⟩

/-- C14: whenever `Validate` returns an error, the rule list splits into rules
that are satisfied, the first rule `cs` that violates a bound, and the rest;
the error is "too few" with the set, the min and the count of `cs` when
`min != 0` and `count < min`, and otherwise "too many" with its set, its max
and its count, and then `max != 0` and `count > max`. -/
theorem C14_Validate_reports_first_violation (g : pwg) (password : List Nat)
    (e : ValidateError) (h : g.Validate password = some e) :
    ∃ pre cs post, g.charSets = pre ++ cs :: post ∧
      (∀ c ∈ pre, ruleSatisfied c password) ∧ ¬ ruleSatisfied cs password ∧
      ((cs.min ≠ 0 ∧ (ruleCount cs password : Int) < cs.min ∧
          e = .tooFew cs.chars cs.min (ruleCount cs password)) ∨
        (¬ (cs.min ≠ 0 ∧ (ruleCount cs password : Int) < cs.min) ∧ cs.max ≠ 0 ∧
          (ruleCount cs password : Int) > cs.max ∧
          e = .tooMany cs.chars cs.max (ruleCount cs password))) := by
  rw [Validate_eq_firstViolation] at h
  obtain ⟨pre, cs, post, hcss, hpre, herr⟩ := firstViolation_some _ _ _ h
  refine ⟨pre, cs, post, hcss, hpre, ?_, herr⟩
  unfold ruleSatisfied
  rcases herr with ⟨h1, h2, _⟩ | ⟨_, h1, h2, _⟩
  · rintro ⟨h3 | h3, _⟩
    · exact h1 h3
    · omega
  · rintro ⟨_, h3 | h3⟩
    · exact h1 h3
    · omega

/-- C14 at `CharSet(1, 1, "a"), CharSet(1, 1, "ab")` and the password `"aa"`:
the error is "too many" of the first rule, with max 1 and count 2. -/
theorem C14_Validate_reports_first_violation_witness :
    overlappingRules.Validate (bytes "aa") = some (.tooMany (bytes "a") 1 2) ∧
      ∃ pre cs post, overlappingRules.charSets = pre ++ cs :: post ∧
        (∀ c ∈ pre, ruleSatisfied c (bytes "aa")) ∧ ¬ ruleSatisfied cs (bytes "aa") ∧
        ((cs.min ≠ 0 ∧ (ruleCount cs (bytes "aa") : Int) < cs.min ∧
            ValidateError.tooMany (bytes "a") 1 2 =
              .tooFew cs.chars cs.min (ruleCount cs (bytes "aa"))) ∨
          (¬ (cs.min ≠ 0 ∧ (ruleCount cs (bytes "aa") : Int) < cs.min) ∧ cs.max ≠ 0 ∧
            (ruleCount cs (bytes "aa") : Int) > cs.max ∧
            ValidateError.tooMany (bytes "a") 1 2 =
              .tooMany cs.chars cs.max (ruleCount cs (bytes "aa")))) :=
  ⟨rfl, C14_Validate_reports_first_violation overlappingRules (bytes "aa")
    (.tooMany (bytes "a") 1 2) rfl⟩

/-- C15: rules are validated independently: `Validate` under a rule list accepts
a password if and only if, for every rule of the list, `Validate` under that
rule alone accepts it. -/
theorem C15_Validate_rule_by_rule (g : pwg) (password : List Nat) :
    g.Validate password = none ↔
      ∀ cs ∈ g.charSets, ({ charSets := [cs] } : pwg).Validate password = none := by
  simp only [Validate_eq_firstViolation, firstViolation_eq_none, List.mem_singleton,
    forall_eq]

/-- C16: for every configuration whose sets consist of single-byte characters,
every `requiredLength` and every outcome of the random draws, every character
of a password that `New` returns, rune or byte, belongs to the set of a
rule. -/
theorem C16_New_emits_configured_characters (g : pwg) (requiredLength : Int) (r : Rand)
    (pw : List Nat) (hsingle : singleByte g) (hnew : g.New requiredLength r = .ok pw) :
    (∀ c ∈ runes pw, ∃ cs ∈ g.charSets, containsRune cs.chars c = true) ∧
      ∀ b ∈ pw, ∃ cs ∈ g.charSets, b ∈ cs.chars := by
  obtain ⟨pieces, hp, hperm⟩ := New_ok hnew
  have hbytes : ∀ b ∈ pw, ∃ cs ∈ g.charSets, b ∈ cs.chars :=
    fun b hb => rulePiece_mem hp b (hperm.mem_iff.1 hb)
  refine ⟨?_, hbytes⟩
  rw [runes_ascii pw (New_singleByte hsingle hnew)]
  intro c hc
  obtain ⟨cs, hcs, hin⟩ := hbytes c hc
  refine ⟨cs, hcs, ?_⟩
  unfold containsRune
  rw [runes_ascii cs.chars (hsingle cs hcs)]
  simpa using hin

/-- C16 at `CharSet(2, 3, "ab"), CharSet(1, 0, "x")`, `New(5)` and the draws
0, 1, 2, ...: every character of `"bbxa"` is in `"ab"` or in `"x"`. -/
theorem C16_New_emits_configured_characters_witness :
    singleByte disjointRules ∧ disjointRules.New 5 countingRand = .ok (bytes "bbxa") ∧
      (∀ c ∈ runes (bytes "bbxa"), ∃ cs ∈ disjointRules.charSets,
        containsRune cs.chars c = true) ∧
      ∀ b ∈ bytes "bbxa", ∃ cs ∈ disjointRules.charSets, b ∈ cs.chars :=
  have hsingle : singleByte disjointRules := by unfold singleByte; decide
  ⟨hsingle, rfl,
    C16_New_emits_configured_characters disjointRules 5 countingRand (bytes "bbxa") hsingle rfl⟩

/-- C17: for every configuration with non-empty sets and `min >= 0`, with `S` the
sum of the min counts and `k` the number of rules with `min < max`, a password
that `New(requiredLength)` returns has length `max(S, min(requiredLength, S + k))`:
it is `S` when `requiredLength <= S`, and never more than `S + k`, the second
loop adding at most one character for each rule with `min < max`. -/
theorem C17_New_length (g : pwg) (requiredLength : Int) (r : Rand) (pw : List Nat)
    (hne : ∀ cs ∈ g.charSets, cs.chars ≠ []) (hmin : ∀ cs ∈ g.charSets, 0 ≤ cs.min)
    (hnew : g.New requiredLength r = .ok pw) :
    (pw.length : Int) =
        max (sumMinInt g.charSets)
          (min requiredLength (sumMinInt g.charSets + (roomy g.charSets : Int))) ∧
      (requiredLength ≤ sumMinInt g.charSets → (pw.length : Int) = sumMinInt g.charSets) ∧
      sumMinInt g.charSets ≤ (pw.length : Int) ∧
      (pw.length : Int) ≤ sumMinInt g.charSets + (roomy g.charSets : Int) := by
  rw [sumMinInt_eq g.charSets hmin]
  have key : (pw.length : Int) =
      max (sumMin g.charSets : Int)
        (min requiredLength ((sumMin g.charSets : Int) + (roomy g.charSets : Int))) := by
    rcases New_course g requiredLength r hne with
      ⟨hreq, pw1, h1, hlen⟩ | ⟨_, _, herr⟩ | ⟨hreq, _, pw1, h1, hlen⟩
    · rw [hnew] at h1
      cases h1
      rw [hlen]
      omega
    · rw [hnew] at herr
      cases herr
    · rw [hnew] at h1
      cases h1
      rw [hlen]
      push_cast
      omega
  refine ⟨key, ?_, ?_, ?_⟩
  · intro hle; omega
  · omega
  · omega

/-- C17 at `CharSet(1, 2, "abc"), CharSet(2, 2, "01")` and `New(5)`: `S = 3`,
`k = 1`, and the password `"1a0a"` has length 4. -/
theorem C17_New_length_witness :
    (∀ cs ∈ lettersAndDigits.charSets, cs.chars ≠ []) ∧
      (∀ cs ∈ lettersAndDigits.charSets, 0 ≤ cs.min) ∧
      lettersAndDigits.New 5 countingRand = .ok (bytes "1a0a") ∧
      sumMinInt lettersAndDigits.charSets = 3 ∧ roomy lettersAndDigits.charSets = 1 ∧
      ((bytes "1a0a").length : Int) =
        max (sumMinInt lettersAndDigits.charSets)
          (min 5 (sumMinInt lettersAndDigits.charSets + (roomy lettersAndDigits.charSets : Int))) :=
  have hne : ∀ cs ∈ lettersAndDigits.charSets, cs.chars ≠ [] := by decide
  have hmin : ∀ cs ∈ lettersAndDigits.charSets, 0 ≤ cs.min := by decide
  ⟨hne, hmin, rfl, by decide, by decide,
    (C17_New_length lettersAndDigits 5 countingRand (bytes "1a0a") hne hmin rfl).1⟩

/-- C18: for every configuration with non-empty sets and `min >= 0` (with one
or more rules, or with none), with `S` the sum of the min counts and `k` the number of rules with
`min < max`, `New(requiredLength)` panics with the index `n` out of range for
the `n` usage counters if and only if a rule at a position `>= 1` has
`min < max` and `requiredLength > S + k`; in every other case it returns a
string. -/
theorem C18_New_panics_iff (g : pwg) (requiredLength : Int) (r : Rand)
    (hne : ∀ cs ∈ g.charSets, cs.chars ≠ []) (hmin : ∀ cs ∈ g.charSets, 0 ≤ cs.min) :
    (g.New requiredLength r = .error (.indexOutOfRange g.charSets.length g.charSets.length) ↔
        (∃ cs ∈ g.charSets.tail, cs.min < cs.max) ∧
          sumMinInt g.charSets + (roomy g.charSets : Int) < requiredLength) ∧
      ((∃ pw, g.New requiredLength r = .ok pw) ↔
        ¬ ((∃ cs ∈ g.charSets.tail, cs.min < cs.max) ∧
          sumMinInt g.charSets + (roomy g.charSets : Int) < requiredLength)) := by
  rw [sumMinInt_eq g.charSets hmin]
  rcases New_course g requiredLength r hne with
    ⟨hreq, pw1, h1, _⟩ | ⟨hreq, htail, herr⟩ | ⟨hreq, htail, pw1, h1, _⟩
  · constructor
    · constructor
      · intro h; rw [h1] at h; cases h
      · rintro ⟨_, h⟩; omega
    · constructor
      · rintro _ ⟨_, h⟩; omega
      · intro _; exact ⟨pw1, h1⟩
  · constructor
    · exact ⟨fun _ => ⟨htail, hreq⟩, fun _ => herr⟩
    · constructor
      · rintro ⟨pw, h⟩; rw [herr] at h; cases h
      · intro h; exact absurd ⟨htail, hreq⟩ h
  · constructor
    · constructor
      · intro h; rw [h1] at h; cases h
      · rintro ⟨h, _⟩; exact absurd h htail
    · constructor
      · rintro _ ⟨h, _⟩; exact htail h
      · intro _; exact ⟨pw1, h1⟩

/-- C18 at `CharSet(0, 1, "a"), CharSet(0, 1, "b")` and `New(3)`: the second rule
has `min < max` and `3 > 0 + 2`, and `New` panics with the index 2. -/
theorem C18_New_panics_iff_witness :
    (∀ cs ∈ twoRoomyRules.charSets, cs.chars ≠ []) ∧
      (∀ cs ∈ twoRoomyRules.charSets, 0 ≤ cs.min) ∧
      ((∃ cs ∈ twoRoomyRules.charSets.tail, cs.min < cs.max) ∧
        sumMinInt twoRoomyRules.charSets + (roomy twoRoomyRules.charSets : Int) < 3) ∧
      twoRoomyRules.New 3 countingRand = .error (.indexOutOfRange 2 2) :=
  have hne : ∀ cs ∈ twoRoomyRules.charSets, cs.chars ≠ [] := by decide
  have hmin : ∀ cs ∈ twoRoomyRules.charSets, 0 ≤ cs.min := by decide
  have hcond : (∃ cs ∈ twoRoomyRules.charSets.tail, cs.min < cs.max) ∧
      sumMinInt twoRoomyRules.charSets + (roomy twoRoomyRules.charSets : Int) < 3 := by decide
  ⟨hne, hmin, hcond, (C18_New_panics_iff twoRoomyRules 3 countingRand hne hmin).1.2 hcond⟩

/-- C19: for every configuration whose sets are non-empty, consist of
single-byte characters and are pairwise disjoint, with `min >= 0` and `max = 0`
or `min <= max` for every rule, every `requiredLength` and every outcome of the
random draws, a password that `New(requiredLength)` returns is accepted by
`Validate`. -/
theorem C19_conditional_roundTrip (g : pwg) (requiredLength : Int) (r : Rand) (pw : List Nat)
    (hne : ∀ cs ∈ g.charSets, cs.chars ≠ []) (hsingle : singleByte g)
    (hdisjoint : pairwiseDisjoint g)
    (hbounds : ∀ cs ∈ g.charSets, 0 ≤ cs.min ∧ (cs.max = 0 ∨ cs.min ≤ cs.max))
    (hnew : g.New requiredLength r = .ok pw) : g.Validate pw = none :=
  Validate_New_disjoint hne hsingle hdisjoint hbounds hnew

/-- C19 at `CharSet(1, 2, "abc"), CharSet(2, 2, "01")` and `New(5)`: the password
`"1a0a"` is accepted. -/
theorem C19_conditional_roundTrip_witness :
    (∀ cs ∈ lettersAndDigits.charSets, cs.chars ≠ []) ∧ singleByte lettersAndDigits ∧
      pairwiseDisjoint lettersAndDigits ∧
      (∀ cs ∈ lettersAndDigits.charSets, 0 ≤ cs.min ∧ (cs.max = 0 ∨ cs.min ≤ cs.max)) ∧
      lettersAndDigits.New 5 countingRand = .ok (bytes "1a0a") ∧
      lettersAndDigits.Validate (bytes "1a0a") = none :=
  have hne : ∀ cs ∈ lettersAndDigits.charSets, cs.chars ≠ [] := by decide
  have hsingle : singleByte lettersAndDigits := by unfold singleByte; decide
  have hdisjoint : pairwiseDisjoint lettersAndDigits := by unfold pairwiseDisjoint; decide
  have hbounds : ∀ cs ∈ lettersAndDigits.charSets,
      0 ≤ cs.min ∧ (cs.max = 0 ∨ cs.min ≤ cs.max) := by decide
  ⟨hne, hsingle, hdisjoint, hbounds, rfl,
    C19_conditional_roundTrip lettersAndDigits 5 countingRand (bytes "1a0a") hne hsingle
      hdisjoint hbounds rfl⟩

theorem shuffle_Validate (g : pwg) (p : List Nat) (r : Rand) (hp : ∀ b ∈ p, b < 128) :
    g.Validate (shuffle p r).1 = g.Validate p := by
  have hperm := shuffle_perm p r
  rw [Validate_eq_firstViolation, Validate_eq_firstViolation]
  apply firstViolation_congr
  intro cs _
  unfold ruleCount
  rw [runes_ascii p hp, runes_ascii _ (fun b hb => hp b (hperm.mem_iff.1 hb)), hperm.countP_eq]

/-- C20, as stated, fails in its last clause: for the rule `CharSet(1, 2, "\\u00e9")`
and `New(2)` the two draws give the bytes 195, 169, which `Validate` accepts,
and the shuffle can swap them to 169, 195, two invalid bytes that `Validate`
rejects, "too few" with count 0.  The two calls differ in the draw of the
shuffle only. -/
theorem C20_shuffle_changes_validity :
    accentRule.New 2 drawsKeep = .ok [195, 169] ∧ accentRule.New 2 drawsSwap = .ok [169, 195] ∧
      (shuffle [195, 169] (fun _ => 0)).1 = [169, 195] ∧
      List.Perm [169, 195] [195, 169] ∧
      accentRule.Validate [195, 169] = none ∧
      accentRule.Validate [169, 195] = some (.tooFew [195, 169] 1 0) :=
  ⟨rfl, rfl, rfl, by decide, rfl, rfl⟩

/-- C20, amended: for every rule list and any two passwords `p` and `q` where
the characters (runes) of `q` are a permutation of those of `p`, or where the
bytes of `q` are a permutation of those of `p` and are single-byte characters,
`Validate(p)` and `Validate(q)` return the same result: both nil, or the same
error for the same rule with the same counts; so the shuffle at the end of
`New` cannot change whether a password of single-byte characters is valid. -/
theorem C20_Validate_order_insensitive (g : pwg) (p q : List Nat)
    (h : (runes q).Perm (runes p) ∨ (q.Perm p ∧ ∀ b ∈ p, b < 128)) :
    g.Validate p = g.Validate q ∧
      ((∀ b ∈ p, b < 128) → ∀ r : Rand, g.Validate (shuffle p r).1 = g.Validate p) := by
  have hperm : (runes q).Perm (runes p) := by
    rcases h with h | ⟨h, hp⟩
    · exact h
    · rw [runes_ascii p hp, runes_ascii q (fun b hb => hp b (h.mem_iff.1 hb))]
      exact h
  refine ⟨?_, fun hp r => shuffle_Validate g p r hp⟩
  rw [Validate_eq_firstViolation, Validate_eq_firstViolation]
  apply firstViolation_congr
  intro cs _
  unfold ruleCount
  rw [hperm.countP_eq]

/-- C20, amended, at `CharSet(1, 1, "a"), CharSet(1, 1, "ab")` and the passwords
`"ab"` and `"ba"`: both are rejected with the same error, "too many" of the
second rule, and so is `"ab"` shuffled. -/
theorem C20_Validate_order_insensitive_witness :
    ((runes (bytes "ba")).Perm (runes (bytes "ab")) ∨
        ((bytes "ba").Perm (bytes "ab") ∧ ∀ b ∈ bytes "ab", b < 128)) ∧
      overlappingRules.Validate (bytes "ab") = some (.tooMany (bytes "ab") 1 2) ∧
      overlappingRules.Validate (bytes "ab") = overlappingRules.Validate (bytes "ba") ∧
      overlappingRules.Validate (shuffle (bytes "ab") countingRand).1 =
        overlappingRules.Validate (bytes "ab") :=
  have h : (runes (bytes "ba")).Perm (runes (bytes "ab")) ∨
      ((bytes "ba").Perm (bytes "ab") ∧ ∀ b ∈ bytes "ab", b < 128) :=
    Or.inr ⟨by decide, by decide⟩
  ⟨h, rfl, (C20_Validate_order_insensitive overlappingRules (bytes "ab") (bytes "ba") h).1,
    (C20_Validate_order_insensitive overlappingRules (bytes "ab") (bytes "ba") h).2
      (by decide) countingRand⟩

end Str
